import Mathlib

/-!
# MusicOCR export pipeline (MuseScore fork): staff accumulation and layout validation

Shallow embedding of `src/mscore/file_save_proto.cpp` (`FindSysStaff`, `SortKey`, `IsSlur`,
`MaybeDuplicate`, `MarkUnsupported`, `SortLayout`, the staff loops of `savePiecesProto`) and of
`src/libmscore/stafflines.cpp` (`xmin`, `xmax`, `StaffLines::updateStaff`).

Conventions of the embedding:

* C++ `double` values are exact rationals (`ℚ`); rounding, infinities and NaN are not modelled.
* `int` values and protobuf enum values are `Int`; no arithmetic on them can overflow here.
* A failed `CHECK...`/`assert` terminates the process; functions that contain one return
  `Option`, with `none` standing for the abort.
* `std::map::operator[]` value-initialises a missing entry to `0.0`; maps are total functions
  that start as the constant `0`.
-/

namespace Ms

namespace MusicOCR

/-- Modelled from the spec: the generated protobuf message `MusicOCR::Piece` is not part of the
sources; its fields are the accessors the code uses (`x`, `y`, `line`, `ref1`, `ref2`, `name`,
`piece_error`, `set_tick`) and the record layout listed in the specification. -/
structure Piece where
  x : ℚ
  y : ℚ
  line : Int
  ref1 : Int
  ref2 : Int
  name : String
  piece_error : String
  tick : Int
deriving DecidableEq

/-- Modelled from the spec: the generated protobuf message `MusicOCR::Staff`. The code reads and
writes `x0`, `x1`, `x2`, `y`, `dy`, `nlines` and the repeated field `piece`. -/
structure Staff where
  x0 : ℚ
  x1 : ℚ
  x2 : ℚ
  y : ℚ
  dy : ℚ
  nlines : Int
  piece : List Piece
deriving DecidableEq

/-- Modelled from the spec: the generated protobuf message `MusicOCR::Layout`, a repeated field
of staves. -/
structure Layout where
  staff : List Staff
deriving DecidableEq

/-- A freshly added protobuf `Staff` (what `layout.add_staff()` returns): every numeric field is
zero and there are no pieces. -/
def Staff.empty : Staff :=
  { x0 := 0, x1 := 0, x2 := 0, y := 0, dy := 0, nlines := 0, piece := [] }

end MusicOCR

open MusicOCR

/-- The enum constants of the generated header that the code refers to (`Staff::MinLine`,
`Staff::MaxLine`, `Staff::TopLineIndex`, `Staff::OcrHeight` and the `Ref1` values). Their
numeric values are not part of the sources, so every function takes them as a parameter. -/
structure OcrConsts where
  MinLine : Int
  MaxLine : Int
  TopLineIndex : Int
  OcrHeight : Int
  SlurEndBelow : Int
  SlurEndAbove : Int
  SlurStartBelow : Int
  SlurStartAbove : Int
  RestWhole : Int
  Rest_64 : Int
  StemDown_64 : Int

/-! ## Sorting (`file_save_proto.cpp`) -/

/-- Source `SortKey`: the tuple `(x, line, y)` of a piece. -/
def SortKey (p : Piece) : ℚ × Int × ℚ :=
  (p.x, p.line, p.y)

/-- Source `operator<` of `std::tuple<double, int, double>`: lexicographic, built from `<` on
the components only. -/
def tupleLt (a b : ℚ × Int × ℚ) : Bool :=
  decide (a.1 < b.1) ||
    (!decide (b.1 < a.1) &&
      (decide (a.2.1 < b.2.1) || (!decide (b.2.1 < a.2.1) && decide (a.2.2 < b.2.2))))

/-- The comparator lambda that `SortLayout` passes to `std::sort` for pieces. -/
def pieceLess (a b : Piece) : Bool :=
  tupleLt (SortKey a) (SortKey b)

/-- The comparator lambda that `SortLayout` passes to `std::sort` for staves. -/
def staffLess (a b : Staff) : Bool :=
  decide (a.y < b.y)

/-- Insertion step of the sort: `v` goes in front of the first element that does not compare
less than `v`. -/
def sortInsert {α : Type} (less : α → α → Bool) (v : α) : List α → List α
  | [] => [v]
  | b :: l => if less b v then b :: sortInsert less v l else v :: b :: l

/-- Source `std::sort(first, last, less)`, modelled as insertion sort. The result is a
permutation of the input that is ordered by `less`; elements that compare equivalent keep
their input order, which is what the library implementations do on short ranges. -/
def stdSort {α : Type} (less : α → α → Bool) : List α → List α
  | [] => []
  | a :: l => sortInsert less a (stdSort less l)

/-! ## Validation (`file_save_proto.cpp`) -/

/-- Source `IsSlur`: the piece has one of the four slur categories. -/
def IsSlur (c : OcrConsts) (piece : Piece) : Bool :=
  [c.SlurEndBelow, c.SlurEndAbove, c.SlurStartBelow, c.SlurStartAbove].any
    (fun x => decide (piece.ref1 = x))

/-- Source `MaybeDuplicate`: `ref1 >= RestWhole && ref1 <= Rest_64 || ref1 <= StemDown_64`. -/
def MaybeDuplicate (c : OcrConsts) (piece : Piece) : Bool :=
  (decide (piece.ref1 ≥ c.RestWhole) && decide (piece.ref1 ≤ c.Rest_64)) ||
    decide (piece.ref1 ≤ c.StemDown_64)

/-- The map `xref1` of `MarkUnsupported`: last x seen per `ref1`. -/
abbrev XRef1 := Int → ℚ

/-- The map `xref2` of `MarkUnsupported`: last x seen per `(ref2, line)`. -/
abbrev XRef2 := Int × Int → ℚ

/-- Assignment through the reference returned by `operator[]`. -/
def mapSet {κ : Type} [DecidableEq κ] (m : κ → ℚ) (k : κ) (v : ℚ) : κ → ℚ :=
  fun j => if j = k then v else m j

/-- What one pass through the loop body of `MarkUnsupported` did to the piece in slot `k`. -/
structure Visit where
  -- the piece as the body leaves it (its `piece_error` may have been set)
  piece : Piece
  -- whether the body erased slot `k` from the repeated field
  erased : Bool
  xref1 : XRef1
  xref2 : XRef2

/-- The `if (auto ref1 = piece.ref1())` block: duplicate and spacing check against the last x
of the same `ref1`. Returns the piece, whether it was erased, and the updated map; `none` when
`CHECK_LE(x, piece.x())` fails. -/
def ref1Block (c : OcrConsts) (dy : ℚ) (piece : Piece) (xref1 : XRef1) :
    Option (Piece × Bool × XRef1) :=
  if piece.ref1 ≠ 0 then
    let x := xref1 piece.ref1
    if x > 0 then
      if ¬ (x ≤ piece.x) then none
      else if MaybeDuplicate c piece = true ∧ piece.x - x < 0.1 * dy then
        some ({ piece with piece_error := "Something is wrong" }, true,
          mapSet xref1 piece.ref1 piece.x)
      else if piece.x - x < 0.9 * dy then
        some ({ piece with piece_error := "x distance too low" }, false,
          mapSet xref1 piece.ref1 piece.x)
      else some (piece, false, mapSet xref1 piece.ref1 piece.x)
    else some (piece, false, mapSet xref1 piece.ref1 piece.x)
  else some (piece, false, xref1)

/-- The `if (auto ref2 = piece.ref2())` block: spacing check against the last x of the same
`(ref2, line)`; `none` when `CHECK_LE(x, piece.x())` fails. -/
def ref2Block (dy : ℚ) (piece : Piece) (xref2 : XRef2) : Option (Piece × XRef2) :=
  if piece.ref2 ≠ 0 then
    let x := xref2 (piece.ref2, piece.line)
    if x > 0 then
      if ¬ (x ≤ piece.x) then none
      else if piece.x - x < 0.9 * dy then
        some ({ piece with piece_error := "x distance too low" },
          mapSet xref2 (piece.ref2, piece.line) piece.x)
      else some (piece, mapSet xref2 (piece.ref2, piece.line) piece.x)
    else some (piece, mapSet xref2 (piece.ref2, piece.line) piece.x)
  else some (piece, xref2)

/-- The body of the `for` loop of `MarkUnsupported` for the piece in slot `k`.

When the duplicate branch erases slot `k`, the C++ reference `piece` keeps denoting the erased
message and the statements after the erase still read `piece.x()`, `piece.ref2()` and
`piece.line()` through it; these reads are modelled as returning the erased piece's own field
values, and the write `set_piece_error` of the second block then has no effect on the staff. -/
def visitPiece (c : OcrConsts) (dy miny maxy : ℚ) (xref1 : XRef1) (xref2 : XRef2)
    (piece : Piece) : Option Visit :=
  if piece.name ≠ "" ∨ piece.piece_error ≠ "" then
    some { piece := piece, erased := false, xref1 := xref1, xref2 := xref2 }
  else if piece.line < c.MinLine ∨ piece.line > c.MaxLine then
    some { piece := { piece with piece_error := "Line outside range" }, erased := false,
           xref1 := xref1, xref2 := xref2 }
  else if piece.y < miny ∨ piece.y > maxy then
    some { piece := { piece with piece_error := "y out of range" }, erased := false,
           xref1 := xref1, xref2 := xref2 }
  else if IsSlur c piece = true then
    some { piece := piece, erased := false, xref1 := xref1, xref2 := xref2 }
  else
    match ref1Block c dy piece xref1 with
    | none => none
    | some (piece1, erased, xref1a) =>
      match ref2Block dy piece1 xref2 with
      | none => none
      | some (piece2, xref2a) =>
        some { piece := piece2, erased := erased, xref1 := xref1a, xref2 := xref2a }

/-- The `for (int k = 0; k < staff.piece_size(); ++k)` loop of `MarkUnsupported`, run on the
pieces from slot `k` on. `skip = true` is the state right after an erase: the element that
followed the erased one has moved into slot `k`, and `++k` steps over it, so it goes to the
output unexamined. -/
def markLoop (c : OcrConsts) (dy miny maxy : ℚ) :
    Bool → XRef1 → XRef2 → List Piece → Option (List Piece)
  | _, _, _, [] => some []
  | true, xref1, xref2, piece :: rest =>
    (markLoop c dy miny maxy false xref1 xref2 rest).map (fun out => piece :: out)
  | false, xref1, xref2, piece :: rest =>
    match visitPiece c dy miny maxy xref1 xref2 piece with
    | none => none
    | some v =>
      if v.erased then markLoop c dy miny maxy true v.xref1 v.xref2 rest
      else (markLoop c dy miny maxy false v.xref1 v.xref2 rest).map (fun out => v.piece :: out)

/-- Lower bound `miny` of `MarkUnsupported`. -/
def minY (c : OcrConsts) (staff : Staff) : ℚ :=
  staff.y - staff.dy * c.TopLineIndex * 0.5

/-- Upper bound `maxy` of `MarkUnsupported`. -/
def maxY (c : OcrConsts) (staff : Staff) : ℚ :=
  minY c staff + staff.dy * (c.OcrHeight - 1 : Int) * 0.5

/-- Source `MarkUnsupported(staff)`: the staff with its piece sequence validated in place, or
`none` when a `CHECK_LE` aborts. -/
def MarkUnsupported (c : OcrConsts) (staff : Staff) : Option Staff :=
  (markLoop c staff.dy (minY c staff) (maxY c staff) false (fun _ => 0) (fun _ => 0)
    staff.piece).map (fun out => { staff with piece := out })

/-- Body of the range-`for` of `SortLayout` for one staff: sort its pieces, then validate. -/
def sortStaff (c : OcrConsts) (staff : Staff) : Option Staff :=
  MarkUnsupported c { staff with piece := stdSort pieceLess staff.piece }

/-- The range-`for` of `SortLayout` over the (already sorted) staves; it stops at the first
abort. -/
def sortStaves (c : OcrConsts) : List Staff → Option (List Staff)
  | [] => some []
  | staff :: rest =>
    match sortStaff c staff with
    | none => none
    | some staff1 => (sortStaves c rest).map (fun out => staff1 :: out)

/-- Source `SortLayout(layout)`: staves sorted by `y`, then every staff sorted and validated. -/
def SortLayout (c : OcrConsts) (layout : Layout) : Option Layout :=
  (sortStaves c (stdSort staffLess layout.staff)).map (fun out => { staff := out })

/-! ## Staff accumulation (`stafflines.cpp`) -/

/-- Modelled from the spec: the Qt class `QLineF` is not part of the sources; a line
segment from `(x1, y1)` to `(x2, y2)`. -/
structure QLineF where
  x1 : ℚ
  y1 : ℚ
  x2 : ℚ
  y2 : ℚ
deriving DecidableEq

/-- Modelled from the spec: the class declaration of `StaffLines` (`stafflines.h`) is not part
of the sources. The record holds what `updateStaff` reads of the element: the member `lines`
(its horizontal line segments) and the value of `pagePos()`, which the layout engine
determines. -/
structure StaffLines where
  lines : List QLineF
  pagePos : ℚ × ℚ
deriving DecidableEq

/-- Source `xmin`. -/
def xmin (x y : ℚ) : ℚ :=
  if x < y then x else y

/-- Source `xmax`. -/
def xmax (x y : ℚ) : ℚ :=
  if x > y then x else y

/-- Source `StaffLines::updateStaff(staff)`: the updated record, or `none` when one of the hard
checks (`CHECK_GE`, `CHECK_EQ`, `CHECK`, `assert`) fails. -/
def updateStaff (sl : StaffLines) (staff : Staff) : Option Staff :=
  match sl.lines with
  | [] => none
  | line0 :: more =>
    if line0.y1 ≠ line0.y2 then none
    else
      let p := sl.pagePos
      let y0 := line0.y1 + p.2
      if staff.x1 = 0 then
        let staff1 := { staff with x0 := line0.x1 + p.1, x1 := line0.x2 + p.1 }
        if ¬ (staff1.x0 ≤ staff1.x1) then none
        else
          let staff2 := { staff1 with y := y0, nlines := (sl.lines.length : Int) }
          match more with
          | [] => some staff2
          | line1 :: _ =>
            let staff3 := { staff2 with dy := line1.y1 - line0.y1 }
            if staff3.dy > 0 then some staff3 else none
      else
        if staff.y ≠ y0 then none
        else if (sl.lines.length : Int) ≠ staff.nlines then none
        else
          some { staff with x0 := xmin staff.x0 (line0.x1 + p.1),
                            x1 := xmax staff.x1 (line0.x2 + p.1) }

/-- Modelled from the spec: the class `StaffType` is not part of the sources. The record holds
what `layoutForWidth` reads of the staff type of the staff at the tick of the measure:
`lines()`, `lineDistance().val()` and `yoffset().val()`. -/
structure StaffType where
  lines : Int
  lineDistance : ℚ
  yoffset : ℚ
deriving DecidableEq

/-- The loop `for (int i = 0; i < _lines; ++i)` of `layoutForWidth`, with `n` iterations left
to run and `y` the current value of the local variable: it pushes `QLineF(x1, y, x2, y)` and
adds `dist` to `y`. -/
def pushLines (x1 x2 dist : ℚ) : Nat → ℚ → List QLineF
  | 0, _ => []
  | n + 1, y => { x1 := x1, y1 := y, x2 := x2, y2 := y } :: pushLines x1 x2 dist n (y + dist)

/-- Source `StaffLines::layoutForWidth(w)`: the member `lines` it leaves behind. `st` is the
staff type when `staff()` is not null and `_spatium` the value of `spatium()`. The position is
set to `(0, 0)` and, with a staff, its y to `yoffset * _spatium`. The statements about
magnification, colour, line width and bounding box do not touch `lines` and are left out. -/
def layoutForWidth (st : Option StaffType) (_spatium w : ℚ) : List QLineF :=
  let dist0 := _spatium
  let pos0 : ℚ × ℚ := (0, 0)
  let r : ℚ × Int × (ℚ × ℚ) :=
    match st with
    | some t => (dist0 * t.lineDistance, t.lines, (pos0.1, t.yoffset * _spatium))
    | none => (dist0, 5, pos0)
  let dist := r.1
  let _lines := r.2.1
  let pos := r.2.2
  let x1 := pos.1
  let x2 := x1 + w
  let y := pos.2
  pushLines x1 x2 dist _lines.toNat y

/-! ## The export loops (`savePiecesProto`) -/

/-- Modelled from the spec: the classes `Element` and `System` are not part of the sources. One
link of an element's parent chain as `FindSysStaff` sees it: the answer of `isSystem()` and,
for a system, `staves()` as the list of its `SysStaff` addresses. -/
structure ChainLink where
  isSystem : Bool
  staves : List Nat
deriving DecidableEq

/-- Modelled from the spec: the class `Element` belongs to the score model, which is not part
of the sources. The record holds what `savePiecesProto` reads of an element; each field stands
for one accessor the export code calls. -/
structure Element where
  -- address of the element, the identity that the set `xset` compares
  addr : Nat
  -- the answer of `visible()`
  visible : Bool
  -- the answer of `staffIdx()`
  staffIdx : Int
  -- the chain walked by `x = x->parent()`: the element itself, its parent, and so on
  chain : List ChainLink
  -- result of `dynamic_cast<const StaffLines*>`
  stafflines : Option StaffLines
  -- whether `dynamic_cast<const LedgerLine*>` succeeds
  isLedgerLine : Bool
  -- the answer of `name()`
  name : String
  -- the answer of `tick()`
  tick : Int
  -- the pieces that `AddToProto(mstaff, mag)` appends to the staff
  proto : ℚ → List Piece

/-- Source `FindSysStaff(p)`: the address of the `SysStaff` of the element, `none` for the null
pointer. -/
def FindSysStaff (p : Element) : Option Nat :=
  match p.chain.find? (fun x => x.isSystem) with
  | none => none
  | some sys =>
    if p.staffIdx < 0 ∨ p.staffIdx ≥ (sys.staves.length : Int) then none
    else sys.staves[p.staffIdx.toNat]?

/-- The map `m` together with the layout it points into: the staves of the layout in the order
`add_staff` created them, each with the `SysStaff` address it is registered under. -/
abbrev StaffTable := List (Nat × Staff)

/-- Statements `mstaff = m[ss]; if (!mstaff) mstaff = layout.add_staff();
stafflines->updateStaff(mstaff)` of the first loop. -/
def updateEntry (stafflines : StaffLines) (ss : Nat) : StaffTable → Option StaffTable
  | [] => (updateStaff stafflines Staff.empty).map (fun s => [(ss, s)])
  | (k, ms) :: rest =>
    if k = ss then (updateStaff stafflines ms).map (fun s => (k, s) :: rest)
    else (updateEntry stafflines ss rest).map (fun out => (k, ms) :: out)

/-- Body of the first loop of `savePiecesProto`; `none` when `CHECK(ss)` or a check inside
`updateStaff` fails. -/
def accumulateStep (table : StaffTable) (el : Element) : Option StaffTable :=
  if el.visible = false then some table
  else
    match el.stafflines with
    | none => some table
    | some stafflines =>
      match FindSysStaff el with
      | none => none
      | some ss => updateEntry stafflines ss table

/-- The first loop of `savePiecesProto` over the element list. -/
def accumulateStaves : StaffTable → List Element → Option StaffTable
  | table, [] => some table
  | table, el :: rest =>
    match accumulateStep table el with
    | none => none
    | some table1 => accumulateStaves table1 rest

/-- Body of the second loop of `savePiecesProto`: the four `set_...(... * mag)` statements. -/
def scaleStaff (mag : ℚ) (ms : Staff) : Staff :=
  let ms1 := { ms with x1 := ms.x1 * mag }
  let ms2 := { ms1 with x2 := ms1.x2 * mag }
  let ms3 := { ms2 with dy := ms2.dy * mag }
  { ms3 with y := ms3.y * mag }

/-- The staves of the layout after the first two loops of `savePiecesProto`. -/
def scaledStaves (vel : List Element) (mag : ℚ) : Option StaffTable :=
  (accumulateStaves [] vel).map (fun table => table.map (fun e => (e.1, scaleStaff mag e.2)))

/-- Statements `n = piece_size(); p->AddToProto(mstaff, mag); set_tick(p->tick())` on the new
pieces, for the staff registered under `ss` (nothing happens when `m[ss]` is null). -/
def addPieces (p : Element) (mag : ℚ) (ss : Nat) : StaffTable → StaffTable
  | [] => []
  | (k, ms) :: rest =>
    if k = ss then
      (k, { ms with piece := ms.piece ++ (p.proto mag).map (fun q => { q with tick := p.tick }) })
        :: rest
    else (k, ms) :: addPieces p mag ss rest

/-- Body of the third loop of `savePiecesProto` on the pair (`xset`, staves). -/
def collectStep (mag : ℚ) (st : List Nat × StaffTable) (p : Element) : List Nat × StaffTable :=
  if p.addr ∈ st.1 then st
  else if p.visible = false then (p.addr :: st.1, st.2)
  else if p.stafflines.isSome then (p.addr :: st.1, st.2)
  else
    match FindSysStaff p with
    | none => (p.addr :: st.1, st.2)
    | some ss =>
      if p.isLedgerLine then (p.addr :: st.1, st.2)
      else (p.addr :: st.1, addPieces p mag ss st.2)

/-- Source `savePiecesProto(vel, fname, mag)` up to the serialisation: the layout that is
written. -/
def savePiecesProto (c : OcrConsts) (vel : List Element) (mag : ℚ) : Option Layout :=
  match scaledStaves vel mag with
  | none => none
  | some table =>
    SortLayout c { staff := ((vel.foldl (collectStep mag) ([], table)).2).map Prod.snd }

/-! ## Notions used to state the properties -/

/-- The sort key of a piece as an element of the lexicographic product order. -/
def lexKey (p : Piece) : ℚ ×ₗ (Int ×ₗ ℚ) :=
  toLex (p.x, toLex (p.line, p.y))

/-- A piece with its `piece_error` blanked: what is left when the error text is ignored. -/
def clearError (p : Piece) : Piece :=
  { p with piece_error := "" }

/-- Every positive tracked x in the map `m` is at most the x of every piece of `ps`. -/
def TrackedBelow {κ : Type} (m : κ → ℚ) (ps : List Piece) : Prop :=
  ∀ k, 0 < m k → ∀ q ∈ ps, m k ≤ q.x

/-- Lexicographic `(x, line, y)` of `a` is at most that of `b`. -/
def LexNonDecreasing (a b : Piece) : Prop :=
  a.x < b.x ∨ (a.x = b.x ∧ (a.line < b.line ∨ (a.line = b.line ∧ a.y ≤ b.y)))

/-- The piece enters validation with empty `name` and empty `piece_error`. -/
def Unlabeled (p : Piece) : Prop :=
  p.name = "" ∧ p.piece_error = ""

/-- The `line` of the piece lies in `[Staff::MinLine, Staff::MaxLine]`. -/
def LineInRange (c : OcrConsts) (p : Piece) : Prop :=
  c.MinLine ≤ p.line ∧ p.line ≤ c.MaxLine

/-- The `y` of the piece lies in `[miny, maxy]` of the staff. -/
def YInRange (c : OcrConsts) (staff : Staff) (p : Piece) : Prop :=
  minY c staff ≤ p.y ∧ p.y ≤ maxY c staff

/-- A staff with `dy > 0` whose piece sequence is exactly the two pieces `p` and `q` (in either
order), both unlabeled, of the same non-slur `ref1`, with in-range `line` and `y`, and with
`q` lying `gap * dy` to the right of `p`. -/
def TwoPieceStaff (c : OcrConsts) (staff : Staff) (p q : Piece) (gap : ℚ) : Prop :=
  0 < staff.dy ∧ (staff.piece = [p, q] ∨ staff.piece = [q, p]) ∧
    Unlabeled p ∧ Unlabeled q ∧ p.ref1 = q.ref1 ∧ IsSlur c p = false ∧
    LineInRange c p ∧ LineInRange c q ∧ YInRange c staff p ∧ YInRange c staff q ∧
    q.x = p.x + gap * staff.dy

/-- A sequence of fragments applied in turn by `updateStaff` to one record; `none` as soon as
one call aborts. -/
def updateStaffAll : Staff → List StaffLines → Option Staff
  | staff, [] => some staff
  | staff, sl :: rest =>
    match updateStaff sl staff with
    | none => none
    | some staff1 => updateStaffAll staff1 rest

/-- The first line segment of a fragment (a zero segment when there is none). -/
def StaffLines.line0 (sl : StaffLines) : QLineF :=
  sl.lines.headD { x1 := 0, y1 := 0, x2 := 0, y2 := 0 }

/-- Left page extent of a fragment: `line0.x1() + pagePos().x()`. -/
def StaffLines.leftExtent (sl : StaffLines) : ℚ :=
  sl.line0.x1 + sl.pagePos.1

/-- Right page extent of a fragment: `line0.x2() + pagePos().x()`. -/
def StaffLines.rightExtent (sl : StaffLines) : ℚ :=
  sl.line0.x2 + sl.pagePos.1

/-- Page y of the top line of a fragment: `line0.y1() + pagePos().y()`. -/
def StaffLines.topLineY (sl : StaffLines) : ℚ :=
  sl.line0.y1 + sl.pagePos.2

/-- Vertical gap between the first two line segments of a fragment; `0`, the value of an unset
`dy`, when the fragment has fewer than two lines. -/
def StaffLines.lineGap (sl : StaffLines) : ℚ :=
  match sl.lines with
  | l0 :: l1 :: _ => l1.y1 - l0.y1
  | _ => 0

/-- The fragment passes the hard checks that `updateStaff` makes on every call: at least one
line, and a horizontal first line. -/
def StaffLines.Checked (sl : StaffLines) : Prop :=
  sl.lines ≠ [] ∧ sl.line0.y1 = sl.line0.y2

/-- The fragment passes the hard checks that `updateStaff` makes on the first fragment of a
staff: left extent at most right extent, and a positive line gap when there are two lines. -/
def StaffLines.CheckedFirst (sl : StaffLines) : Prop :=
  sl.Checked ∧ sl.leftExtent ≤ sl.rightExtent ∧ (2 ≤ sl.lines.length → 0 < sl.lineGap)

/-- Walking the right extents `rs` of the fragments that follow, the accumulated `x1` (which
starts as `acc`) is non-zero each time a further fragment arrives, so the record is never
taken for an empty one. -/
def NeverLooksEmpty : ℚ → List ℚ → Prop
  | _, [] => True
  | acc, r :: rs => acc ≠ 0 ∧ NeverLooksEmpty (max acc r) rs

/-- The geometry invariant that `updateStaff` maintains on a record it has filled. -/
def StaffGeometryOk (s : Staff) : Prop :=
  1 ≤ s.nlines ∧ s.x0 ≤ s.x1 ∧ (2 ≤ s.nlines → 0 < s.dy)

/-- The staff `t` is the staff `s` with its pieces permuted. -/
def StaffPermuted (s t : Staff) : Prop :=
  ∃ ps : List Piece, ps.Perm s.piece ∧ t = { s with piece := ps }

/-- The layout `L2` is obtained from `L1` by permuting the staves and permuting the pieces
inside each staff. -/
def LayoutPermuted (L1 L2 : Layout) : Prop :=
  ∃ M : List Staff, M.Perm L1.staff ∧ List.Forall₂ StaffPermuted M L2.staff

/-- No two staves of the layout share a `y`, and inside a staff no two pieces share a sort
key `(x, line, y)`. -/
def DistinctKeys (L : Layout) : Prop :=
  (L.staff.map Staff.y).Nodup ∧ ∀ s ∈ L.staff, (s.piece.map SortKey).Nodup

/-- The link `sys` is the nearest enclosing system on the chain: it is a system, and no link
before it (the element itself and the ancestors below `sys`) is one. -/
def NearestSystem (chain : List ChainLink) (sys : ChainLink) : Prop :=
  ∃ before after : List ChainLink,
    chain = before ++ sys :: after ∧ (∀ x ∈ before, x.isSystem = false) ∧ sys.isSystem = true

/-- The piece `p` is a true duplicate after the earlier pieces `earlier` of the staff: it is
unlabeled, its `ref1` is a non-zero category for which `MaybeDuplicate` holds, and it lies less
than `0.1 * dy` to the right of the positive x of an earlier piece of the same `ref1`. -/
def TrueDuplicate (c : OcrConsts) (dy : ℚ) (earlier : List Piece) (p : Piece) : Prop :=
  Unlabeled p ∧ p.ref1 ≠ 0 ∧ MaybeDuplicate c p = true ∧
    ∃ e ∈ earlier, e.ref1 = p.ref1 ∧ 0 < e.x ∧ e.x ≤ p.x ∧ p.x - e.x < 0.1 * dy

/-- Relation between the pieces `ps` that are still to be scanned and the pieces `out` that the
scan leaves of them, `earlier` being the pieces of the staff that came before: every piece is
either kept, with at most its `piece_error` changed, or dropped, and a dropped piece is a true
duplicate. -/
inductive OnlyDuplicatesDropped (c : OcrConsts) (dy : ℚ) :
    List Piece → List Piece → List Piece → Prop
  | done (earlier : List Piece) : OnlyDuplicatesDropped c dy earlier [] []
  | keep (earlier : List Piece) (p q : Piece) (ps out : List Piece) :
      clearError q = clearError p → OnlyDuplicatesDropped c dy (p :: earlier) ps out →
      OnlyDuplicatesDropped c dy earlier (p :: ps) (q :: out)
  | drop (earlier : List Piece) (p : Piece) (ps out : List Piece) :
      TrueDuplicate c dy earlier p → OnlyDuplicatesDropped c dy (p :: earlier) ps out →
      OnlyDuplicatesDropped c dy earlier (p :: ps) out

/-- Every positive tracked x in the map `m` is the x of a piece of `earlier` with that
`ref1`. -/
def TrackedFrom (m : XRef1) (earlier : List Piece) : Prop :=
  ∀ k, 0 < m k → ∃ e ∈ earlier, e.ref1 = k ∧ e.x = m k

/-- What the range checks make of a piece `p` that ends as `q`: `q` is `p` up to
`piece_error`; if `p` entered unlabeled with its line in range, `q` carries "y out of range"
exactly when the y of `p` is below `miny` or above `maxy`; if `p` entered unlabeled with its
line out of range, `q` carries "Line outside range". -/
def RangeOutcome (c : OcrConsts) (miny maxy : ℚ) (p q : Piece) : Prop :=
  clearError q = clearError p ∧
    (Unlabeled p → LineInRange c p →
      (q.piece_error = "y out of range" ↔ (p.y < miny ∨ p.y > maxy))) ∧
    (Unlabeled p → ¬ LineInRange c p → q.piece_error = "Line outside range")

/-- The element list with every later repeated occurrence of an element removed; `seen` holds
the addresses of the elements that came before. -/
def removeRepeats : List Nat → List Element → List Element
  | _, [] => []
  | seen, e :: rest =>
    if e.addr ∈ seen then removeRepeats seen rest else e :: removeRepeats (e.addr :: seen) rest

/-- Entries of the list with the same address are the same element (the list is a list of
pointers). -/
def AddressesIdentify (vel : List Element) : Prop :=
  ∀ a ∈ vel, ∀ b ∈ vel, a.addr = b.addr → a = b

/-- The staff-line fragment of the element, if it is a visible `StaffLines` element, has a
non-zero right page extent. -/
def RightExtentNonzero (e : Element) : Prop :=
  e.visible = true → ∀ sl, e.stafflines = some sl → sl.rightExtent ≠ 0

/-! ## Concrete inputs -/

/-- One assignment of the constants, used for the concrete evaluations below. -/
def sampleConsts : OcrConsts :=
  { MinLine := -8, MaxLine := 16, TopLineIndex := 8, OcrHeight := 25,
    SlurEndBelow := 30, SlurEndAbove := 31, SlurStartBelow := 32, SlurStartAbove := 33,
    RestWhole := 20, Rest_64 := 26, StemDown_64 := 14 }

/-- An unlabeled piece at `(x, 10)` on line `line` with category `ref1` and no `ref2`. -/
def samplePiece (x : ℚ) (line ref1 : Int) : Piece :=
  { x := x, y := 10, line := line, ref1 := ref1, ref2 := 0, name := "", piece_error := "",
    tick := 0 }

/-- A piece at `(x, 10)` on line 0 without categories that already carries the label `name`. -/
def labeledPiece (x : ℚ) (name : String) : Piece :=
  { samplePiece x 0 0 with name := name }

/-- A five-line staff at `y = 10` with line distance `1` that holds the pieces `ps`. -/
def sampleStaff (ps : List Piece) : Staff :=
  { x0 := 0, x1 := 100, x2 := 0, y := 10, dy := 1, nlines := 5, piece := ps }

/-- A fragment of five horizontal lines, one unit apart, from local x `a` to local x `b`, on
the page position `(px, py)`. -/
def sampleFragment (a b px py : ℚ) : StaffLines :=
  { lines := [{ x1 := a, y1 := 0, x2 := b, y2 := 0 }, { x1 := a, y1 := 1, x2 := b, y2 := 1 },
              { x1 := a, y1 := 2, x2 := b, y2 := 2 }, { x1 := a, y1 := 3, x2 := b, y2 := 3 },
              { x1 := a, y1 := 4, x2 := b, y2 := 4 }],
    pagePos := (px, py) }

/-- A fragment of a single horizontal line from local x `a` to local x `b`, on the page
position `(px, py)`. -/
def oneLineFragment (a b px py : ℚ) : StaffLines :=
  { lines := [{ x1 := a, y1 := 0, x2 := b, y2 := 0 }], pagePos := (px, py) }

/-- A visible `StaffLines` element of staff 0 of a system whose only `SysStaff` has address 7. -/
def sampleStaffLinesElement (addr : Nat) (sl : StaffLines) : Element :=
  { addr := addr, visible := true, staffIdx := 0,
    chain := [{ isSystem := false, staves := [] }, { isSystem := true, staves := [7] }],
    stafflines := some sl, isLedgerLine := false, name := "StaffLines", tick := 0,
    proto := fun _ => [] }

/-- A five-line staff type with line distance 1 and no vertical offset. -/
def sampleStaffType : StaffType :=
  { lines := 5, lineDistance := 1, yoffset := 0 }


/-- A visible note-like element of the same staff as `sampleStaffLinesElement`, with tick 0,
whose `AddToProto` appends the pieces `ps`. -/
def sampleNoteElement (addr : Nat) (ps : List Piece) : Element :=
  { addr := addr, visible := true, staffIdx := 0,
    chain := [{ isSystem := false, staves := [] }, { isSystem := true, staves := [7] }],
    stafflines := none, isLedgerLine := false, name := "Note", tick := 0,
    proto := fun _ => ps }

/-- An unlabeled piece of category 5 at `(x, 50)` on line 0. -/
def sampleNotePiece (x : ℚ) : Piece :=
  { samplePiece x 0 5 with y := 50 }
/-! ## Facts about the sort -/

theorem sortInsert_perm {α : Type} (less : α → α → Bool) (v : α) (l : List α) :
    (sortInsert less v l).Perm (v :: l) := by
  induction l with
  | nil => simp [sortInsert]
  | cons b l ih =>
    simp only [sortInsert]
    split
    · exact (List.Perm.cons b ih).trans (List.Perm.swap v b l)
    · exact List.Perm.refl _

theorem stdSort_perm {α : Type} (less : α → α → Bool) (l : List α) :
    (stdSort less l).Perm l := by
  induction l with
  | nil => simp [stdSort]
  | cons a l ih =>
    simp only [stdSort]
    exact (sortInsert_perm less a _).trans (List.Perm.cons a ih)

theorem sortInsert_sorted {α K : Type} [LinearOrder K] (less : α → α → Bool) (key : α → K)
    (hless : ∀ a b, less a b = true ↔ key a < key b) (v : α) (l : List α)
    (h : l.Pairwise (fun a b => key a ≤ key b)) :
    (sortInsert less v l).Pairwise (fun a b => key a ≤ key b) := by
  induction l with
  | nil => simp [sortInsert]
  | cons b l ih =>
    rw [List.pairwise_cons] at h
    simp only [sortInsert]
    split
    · rename_i hb
      rw [List.pairwise_cons]
      refine ⟨?_, ih h.2⟩
      intro x hx
      rcases List.mem_cons.mp ((sortInsert_perm less v l).subset hx) with rfl | hx
      · exact le_of_lt ((hless _ _).mp hb)
      · exact h.1 x hx
    · rename_i hb
      have hvb : key v ≤ key b := by
        rw [hless] at hb
        exact not_lt.mp hb
      rw [List.pairwise_cons]
      refine ⟨?_, List.pairwise_cons.mpr h⟩
      intro x hx
      rcases List.mem_cons.mp hx with rfl | hx
      · exact hvb
      · exact le_trans hvb (h.1 x hx)

theorem stdSort_sorted {α K : Type} [LinearOrder K] (less : α → α → Bool) (key : α → K)
    (hless : ∀ a b, less a b = true ↔ key a < key b) (l : List α) :
    (stdSort less l).Pairwise (fun a b => key a ≤ key b) := by
  induction l with
  | nil => simp [stdSort]
  | cons a l ih =>
    simp only [stdSort]
    exact sortInsert_sorted less key hless a _ ih

theorem pieceLess_iff (a b : Piece) : pieceLess a b = true ↔ lexKey a < lexKey b := by
  simp only [pieceLess, tupleLt, SortKey, lexKey, Prod.Lex.lt_iff, Bool.or_eq_true,
    Bool.and_eq_true, Bool.not_eq_true', decide_eq_true_eq, decide_eq_false_iff_not, not_lt,
    ofLex_toLex]
  constructor
  · rintro (h | ⟨h1, h | ⟨h2, h3⟩⟩)
    · exact Or.inl h
    · by_cases hx : a.x = b.x
      · exact Or.inr ⟨hx, Or.inl h⟩
      · exact Or.inl (lt_of_le_of_ne h1 hx)
    · by_cases hx : a.x = b.x
      · by_cases hl : a.line = b.line
        · exact Or.inr ⟨hx, Or.inr ⟨hl, h3⟩⟩
        · exact Or.inr ⟨hx, Or.inl (lt_of_le_of_ne h2 hl)⟩
      · exact Or.inl (lt_of_le_of_ne h1 hx)
  · rintro (h | ⟨h1, h | ⟨h2, h3⟩⟩)
    · exact Or.inl h
    · exact Or.inr ⟨le_of_eq h1, Or.inl h⟩
    · exact Or.inr ⟨le_of_eq h1, Or.inr ⟨le_of_eq h2, h3⟩⟩

theorem staffLess_iff (a b : Staff) : staffLess a b = true ↔ a.y < b.y := by
  simp [staffLess]


/-! ## Facts about the validation loop -/

theorem clearError_fields {p q : Piece} (h : clearError p = clearError q) :
    p.x = q.x ∧ p.y = q.y ∧ p.line = q.line ∧ p.ref1 = q.ref1 ∧ p.ref2 = q.ref2 ∧
      p.name = q.name ∧ p.tick = q.tick := by
  simp only [clearError, Piece.mk.injEq] at h
  tauto

theorem ref1Block_some (c : OcrConsts) (dy : ℚ) (piece : Piece) (xref1 : XRef1)
    (h : 0 < xref1 piece.ref1 → xref1 piece.ref1 ≤ piece.x) :
    ∃ p e m, ref1Block c dy piece xref1 = some (p, e, m) ∧ clearError p = clearError piece ∧
      ∀ k, m k = xref1 k ∨ m k = piece.x := by
  unfold ref1Block
  dsimp only
  split_ifs <;>
    first
    | exact absurd (h ‹_›) ‹_›
    | refine ⟨_, _, _, rfl, rfl, fun k => ?_⟩
      first
      | exact Or.inl rfl
      | (unfold mapSet; split_ifs
         · exact Or.inr rfl
         · exact Or.inl rfl)

theorem ref2Block_some (dy : ℚ) (piece : Piece) (xref2 : XRef2)
    (h : 0 < xref2 (piece.ref2, piece.line) → xref2 (piece.ref2, piece.line) ≤ piece.x) :
    ∃ p m, ref2Block dy piece xref2 = some (p, m) ∧ clearError p = clearError piece ∧
      ∀ k, m k = xref2 k ∨ m k = piece.x := by
  unfold ref2Block
  dsimp only
  split_ifs <;>
    first
    | exact absurd (h ‹_›) ‹_›
    | refine ⟨_, _, rfl, rfl, fun k => ?_⟩
      first
      | exact Or.inl rfl
      | (unfold mapSet; split_ifs
         · exact Or.inr rfl
         · exact Or.inl rfl)

theorem visitPiece_some (c : OcrConsts) (dy miny maxy : ℚ) (xref1 : XRef1) (xref2 : XRef2)
    (piece : Piece) (h1 : ∀ k, 0 < xref1 k → xref1 k ≤ piece.x)
    (h2 : ∀ k, 0 < xref2 k → xref2 k ≤ piece.x) :
    ∃ v, visitPiece c dy miny maxy xref1 xref2 piece = some v ∧
      clearError v.piece = clearError piece ∧
      (∀ k, v.xref1 k = xref1 k ∨ v.xref1 k = piece.x) ∧
      (∀ k, v.xref2 k = xref2 k ∨ v.xref2 k = piece.x) := by
  unfold visitPiece
  split_ifs
  · exact ⟨_, rfl, rfl, fun _ => Or.inl rfl, fun _ => Or.inl rfl⟩
  · exact ⟨_, rfl, rfl, fun _ => Or.inl rfl, fun _ => Or.inl rfl⟩
  · exact ⟨_, rfl, rfl, fun _ => Or.inl rfl, fun _ => Or.inl rfl⟩
  · exact ⟨_, rfl, rfl, fun _ => Or.inl rfl, fun _ => Or.inl rfl⟩
  · obtain ⟨p1, e, m1, hb1, hc1, hm1⟩ := ref1Block_some c dy piece xref1 (h1 _)
    have hf := clearError_fields hc1
    obtain ⟨p2, m2, hb2, hc2, hm2⟩ := ref2Block_some dy p1 xref2 (by
      rw [hf.1]; exact h2 _)
    rw [hb1]
    simp only [hb2]
    refine ⟨_, rfl, hc2.trans hc1, hm1, ?_⟩
    intro k
    rw [← hf.1]
    exact hm2 k

theorem trackedBelow_step {κ : Type} {m m1 : κ → ℚ} {piece : Piece} {rest : List Piece}
    (hm : TrackedBelow m (piece :: rest))
    (hsorted : (piece :: rest).Pairwise (fun a b => a.x ≤ b.x))
    (h : ∀ k, m1 k = m k ∨ m1 k = piece.x) : TrackedBelow m1 rest := by
  intro k hk q hq
  rcases h k with e | e
  · rw [e] at hk ⊢
    exact hm k hk q (List.mem_cons_of_mem _ hq)
  · rw [e]
    exact (List.pairwise_cons.mp hsorted).1 q hq

theorem markLoop_some (c : OcrConsts) (dy miny maxy : ℚ) (ps : List Piece) :
    ∀ (skip : Bool) (xref1 : XRef1) (xref2 : XRef2),
      ps.Pairwise (fun a b => a.x ≤ b.x) → TrackedBelow xref1 ps → TrackedBelow xref2 ps →
      ∃ out, markLoop c dy miny maxy skip xref1 xref2 ps = some out ∧
        (out.map clearError).Sublist (ps.map clearError) := by
  induction ps with
  | nil =>
    intro skip xref1 xref2 _ _ _
    exact ⟨[], by cases skip <;> rfl, by simp⟩
  | cons piece rest ih =>
    intro skip xref1 xref2 hs h1 h2
    have hrest := (List.pairwise_cons.mp hs).2
    cases skip with
    | true =>
      obtain ⟨out, ho, hsub⟩ := ih false xref1 xref2 hrest
        (fun k hk q hq => h1 k hk q (List.mem_cons_of_mem _ hq))
        (fun k hk q hq => h2 k hk q (List.mem_cons_of_mem _ hq))
      refine ⟨piece :: out, by simp [markLoop, ho], ?_⟩
      simpa using hsub.cons₂ (clearError piece)
    | false =>
      obtain ⟨v, hv, hc, hm1, hm2⟩ := visitPiece_some c dy miny maxy xref1 xref2 piece
        (fun k hk => h1 k hk piece (List.mem_cons_self _ _))
        (fun k hk => h2 k hk piece (List.mem_cons_self _ _))
      have t1 := trackedBelow_step h1 hs hm1
      have t2 := trackedBelow_step h2 hs hm2
      by_cases he : v.erased = true
      · obtain ⟨out, ho, hsub⟩ := ih true v.xref1 v.xref2 hrest t1 t2
        refine ⟨out, by simp [markLoop, hv, he, ho], ?_⟩
        simpa using hsub.cons (clearError piece)
      · obtain ⟨out, ho, hsub⟩ := ih false v.xref1 v.xref2 hrest t1 t2
        refine ⟨v.piece :: out, by simp [markLoop, hv, he, ho], ?_⟩
        simpa [hc] using hsub.cons₂ (clearError piece)

theorem lexKey_le_iff (a b : Piece) : lexKey a ≤ lexKey b ↔ LexNonDecreasing a b := by
  simp only [lexKey, LexNonDecreasing, Prod.Lex.le_iff, Prod.Lex.lt_iff, ofLex_toLex]

theorem lexKey_clearError (p : Piece) : lexKey (clearError p) = lexKey p := rfl

theorem stdSort_pieces_sorted (ps : List Piece) :
    (stdSort pieceLess ps).Pairwise (fun a b => lexKey a ≤ lexKey b) :=
  stdSort_sorted pieceLess lexKey pieceLess_iff ps

theorem lexKey_le_x {a b : Piece} (h : lexKey a ≤ lexKey b) : a.x ≤ b.x := by
  rcases (lexKey_le_iff a b).mp h with h | h
  · exact le_of_lt h
  · exact le_of_eq h.1

/-- On a staff whose pieces are ordered by the sort key, `MarkUnsupported` returns, and what
it returns is the staff with a subsequence of the pieces (error texts aside). -/
theorem MarkUnsupported_some (c : OcrConsts) (staff : Staff)
    (hs : staff.piece.Pairwise (fun a b => lexKey a ≤ lexKey b)) :
    ∃ out, MarkUnsupported c staff = some { staff with piece := out } ∧
      (out.map clearError).Sublist (staff.piece.map clearError) := by
  obtain ⟨out, ho, hsub⟩ := markLoop_some c staff.dy (minY c staff) (maxY c staff) staff.piece
    false (fun _ => 0) (fun _ => 0) (hs.imp lexKey_le_x)
    (fun k hk => absurd hk (lt_irrefl _)) (fun k hk => absurd hk (lt_irrefl _))
  exact ⟨out, by simp [MarkUnsupported, ho], hsub⟩

theorem sortStaff_some (c : OcrConsts) (staff : Staff) :
    ∃ out, sortStaff c staff = some { staff with piece := out } ∧
      (out.map clearError).Sublist ((stdSort pieceLess staff.piece).map clearError) := by
  obtain ⟨out, ho, hsub⟩ := MarkUnsupported_some c
    { staff with piece := stdSort pieceLess staff.piece } (stdSort_pieces_sorted staff.piece)
  exact ⟨out, ho, hsub⟩

theorem sortStaves_some (c : OcrConsts) (staves : List Staff) :
    ∃ out, sortStaves c staves = some out ∧
      List.Forall₂ (fun s t => sortStaff c s = some t) staves out := by
  induction staves with
  | nil => exact ⟨[], rfl, List.Forall₂.nil⟩
  | cons s rest ih =>
    obtain ⟨out, ho, hf⟩ := ih
    obtain ⟨ps, hp, _⟩ := sortStaff_some c s
    exact ⟨_ :: out, by simp [sortStaves, hp, ho], List.Forall₂.cons hp hf⟩

theorem sorted_of_clearError_sublist {out ps : List Piece}
    (hsub : (out.map clearError).Sublist (ps.map clearError))
    (hs : ps.Pairwise (fun a b => lexKey a ≤ lexKey b)) :
    out.Pairwise (fun a b => lexKey a ≤ lexKey b) := by
  have h1 : (ps.map clearError).Pairwise (fun a b => lexKey a ≤ lexKey b) := by
    rw [List.pairwise_map]
    exact hs
  have h2 := h1.sublist hsub
  rw [List.pairwise_map] at h2
  exact h2

theorem sortStaff_y {c : OcrConsts} {s t : Staff} (h : sortStaff c s = some t) : t.y = s.y := by
  obtain ⟨out, ho, _⟩ := sortStaff_some c s
  rw [h] at ho
  rw [Option.some.inj ho]

theorem sortStaff_pieces_sorted {c : OcrConsts} {s t : Staff} (h : sortStaff c s = some t) :
    t.piece.Pairwise (fun a b => lexKey a ≤ lexKey b) := by
  obtain ⟨out, ho, hsub⟩ := sortStaff_some c s
  rw [h] at ho
  rw [Option.some.inj ho]
  exact sorted_of_clearError_sublist hsub (stdSort_pieces_sorted s.piece)

theorem forall₂_sortStaff_y {c : OcrConsts} {staves out : List Staff}
    (h : List.Forall₂ (fun s t => sortStaff c s = some t) staves out) :
    out.map Staff.y = staves.map Staff.y := by
  induction h with
  | nil => rfl
  | cons hst _ ih => simp [sortStaff_y hst, ih]

theorem forall₂_sortStaff_mem {c : OcrConsts} {staves out : List Staff}
    (h : List.Forall₂ (fun s t => sortStaff c s = some t) staves out) :
    ∀ t ∈ out, ∃ s ∈ staves, sortStaff c s = some t := by
  induction h with
  | nil => intro t ht; cases ht
  | cons hst _ ih =>
    intro t ht
    rcases List.mem_cons.mp ht with rfl | ht
    · exact ⟨_, List.mem_cons_self _ _, hst⟩
    · obtain ⟨s, hs, e⟩ := ih t ht
      exact ⟨s, List.mem_cons_of_mem _ hs, e⟩

/-- C1: for every layout, `SortLayout` returns, and in the layout it returns adjacent staves
satisfy `staff[i].y <= staff[i+1].y` and, inside every staff, adjacent pieces that remain after
validation have lexicographically non-decreasing `(x, line, y)` tuples. -/
theorem C1_SortLayout_sorted (c : OcrConsts) (layout : Layout) :
    ∃ out, SortLayout c layout = some out ∧
      List.Chain' (fun a b : Staff => a.y ≤ b.y) out.staff ∧
      ∀ s ∈ out.staff, List.Chain' LexNonDecreasing s.piece := by
  obtain ⟨out, ho, hf⟩ := sortStaves_some c (stdSort staffLess layout.staff)
  refine ⟨{ staff := out }, by simp [SortLayout, ho], ?_, ?_⟩
  · have hs : (stdSort staffLess layout.staff).Pairwise (fun a b => a.y ≤ b.y) :=
      stdSort_sorted staffLess Staff.y staffLess_iff layout.staff
    have h1 : ((stdSort staffLess layout.staff).map Staff.y).Pairwise (fun a b => a ≤ b) := by
      rw [List.pairwise_map]
      exact hs
    rw [← forall₂_sortStaff_y hf, List.pairwise_map] at h1
    exact h1.chain'
  · intro t ht
    obtain ⟨s, _, hst⟩ := forall₂_sortStaff_mem hf t ht
    exact ((sortStaff_pieces_sorted hst).imp (fun h => (lexKey_le_iff _ _).mp h)).chain'

/-! ## Two-piece staves -/

theorem visitPiece_checked (c : OcrConsts) (dy miny maxy : ℚ) (xref1 : XRef1) (xref2 : XRef2)
    (p : Piece) (hu : Unlabeled p) (hl : LineInRange c p) (hy : miny ≤ p.y ∧ p.y ≤ maxy)
    (hs : IsSlur c p = false) :
    visitPiece c dy miny maxy xref1 xref2 p =
      match ref1Block c dy p xref1 with
      | none => none
      | some (piece1, erased, xref1a) =>
        match ref2Block dy piece1 xref2 with
        | none => none
        | some (piece2, xref2a) =>
          some { piece := piece2, erased := erased, xref1 := xref1a, xref2 := xref2a } := by
  unfold visitPiece
  rw [if_neg (by simp [hu.1, hu.2]), if_neg (by
    rw [not_or, not_lt, not_lt]; exact hl), if_neg (by
    rw [not_or, not_lt, not_lt]; exact hy), if_neg (by simp [hs])]

theorem ref1Block_fresh (c : OcrConsts) (dy : ℚ) (p : Piece) (xref1 : XRef1)
    (h : xref1 p.ref1 ≤ 0) :
    ref1Block c dy p xref1 =
      some (p, false, if p.ref1 ≠ 0 then mapSet xref1 p.ref1 p.x else xref1) := by
  unfold ref1Block
  dsimp only
  by_cases h0 : p.ref1 ≠ 0
  · rw [if_pos h0, if_neg (not_lt.mpr h), if_pos h0]
  · rw [if_neg h0, if_neg h0]

theorem ref2Block_fresh (dy : ℚ) (p : Piece) (xref2 : XRef2)
    (h : xref2 (p.ref2, p.line) ≤ 0) :
    ref2Block dy p xref2 =
      some (p, if p.ref2 ≠ 0 then mapSet xref2 (p.ref2, p.line) p.x else xref2) := by
  unfold ref2Block
  dsimp only
  by_cases h0 : p.ref2 ≠ 0
  · rw [if_pos h0, if_neg (not_lt.mpr h), if_pos h0]
  · rw [if_neg h0, if_neg h0]

/-- The first unlabeled, in-range, non-slur piece of a staff is kept as it is. -/
theorem visitPiece_first (c : OcrConsts) (dy miny maxy : ℚ) (p : Piece) (hu : Unlabeled p)
    (hl : LineInRange c p) (hy : miny ≤ p.y ∧ p.y ≤ maxy) (hs : IsSlur c p = false) :
    visitPiece c dy miny maxy (fun _ => 0) (fun _ => 0) p =
      some { piece := p, erased := false,
             xref1 := if p.ref1 ≠ 0 then mapSet (fun _ => 0) p.ref1 p.x else fun _ => 0,
             xref2 := if p.ref2 ≠ 0 then mapSet (fun _ => 0) (p.ref2, p.line) p.x
                      else fun _ => 0 } := by
  rw [visitPiece_checked c dy miny maxy _ _ p hu hl hy hs,
    ref1Block_fresh c dy p _ (le_refl _)]
  dsimp only
  rw [ref2Block_fresh dy p _ (le_refl _)]

theorem ref2Block_flagged (dy : ℚ) (p : Piece) (xref2 : XRef2)
    (he : p.piece_error = "x distance too low")
    (h : 0 < xref2 (p.ref2, p.line) → xref2 (p.ref2, p.line) ≤ p.x) :
    ∃ m, ref2Block dy p xref2 = some (p, m) := by
  have hp : ({ p with piece_error := "x distance too low" } : Piece) = p := by
    cases p
    simp only [Piece.mk.injEq, true_and, and_true] at he ⊢
    exact he.symm
  unfold ref2Block
  dsimp only
  rw [hp]
  split_ifs <;>
    first
    | exact ⟨_, rfl⟩
    | exact absurd (h ‹_›) ‹_›

theorem stdSort_pair {p q : Piece} (h : p.x < q.x) (ps : List Piece)
    (hps : ps = [p, q] ∨ ps = [q, p]) : stdSort pieceLess ps = [p, q] := by
  have h1 : pieceLess p q = true := by
    simp [pieceLess, tupleLt, SortKey, h]
  have h2 : pieceLess q p = false := by
    simp [pieceLess, tupleLt, SortKey, h, not_lt.mpr (le_of_lt h), le_of_lt h]
  rcases hps with rfl | rfl
  · simp [stdSort, sortInsert, h2]
  · simp [stdSort, sortInsert, h1]

theorem seed_below (p : Piece) (x : ℚ) (h : p.x ≤ x) :
    (∀ k, 0 < (if p.ref1 ≠ 0 then mapSet (fun _ => (0 : ℚ)) p.ref1 p.x else fun _ => 0) k →
      (if p.ref1 ≠ 0 then mapSet (fun _ => (0 : ℚ)) p.ref1 p.x else fun _ => 0) k ≤ x) ∧
    (∀ k, 0 < (if p.ref2 ≠ 0 then mapSet (fun _ => (0 : ℚ)) (p.ref2, p.line) p.x
        else fun _ => 0) k →
      (if p.ref2 ≠ 0 then mapSet (fun _ => (0 : ℚ)) (p.ref2, p.line) p.x else fun _ => 0) k
        ≤ x) := by
  constructor <;> intro k <;> split_ifs <;> intro hk
  · unfold mapSet at hk ⊢
    split_ifs at hk ⊢
    · exact h
    · exact absurd hk (lt_irrefl _)
  · exact absurd hk (lt_irrefl _)
  · unfold mapSet at hk ⊢
    split_ifs at hk ⊢
    · exact h
    · exact absurd hk (lt_irrefl _)
  · exact absurd hk (lt_irrefl _)

theorem sortStaff_eq (c : OcrConsts) (staff : Staff) :
    sortStaff c staff =
      (markLoop c staff.dy (minY c staff) (maxY c staff) false (fun _ => 0) (fun _ => 0)
        (stdSort pieceLess staff.piece)).map (fun out => { staff with piece := out }) :=
  rfl

/-- The loop on a sequence that starts with two unlabeled in-range pieces of one duplicate-prone
category, the second `0.05 * dy` to the right of the first, the first at a positive x: the
first is kept as it entered, the second is erased, and the loop goes on in the state that steps
over the next slot. -/
theorem markLoop_duplicate_head (c : OcrConsts) (dy miny maxy : ℚ) (p q : Piece)
    (rest : List Piece) (hdy : 0 < dy) (hp : Unlabeled p) (hq : Unlabeled q)
    (href : p.ref1 = q.ref1) (hnz : p.ref1 ≠ 0) (hdup : MaybeDuplicate c p = true)
    (hslur : IsSlur c p = false) (hline : p.line = q.line) (hlr : LineInRange c p)
    (hyp : miny ≤ p.y ∧ p.y ≤ maxy) (hyq : miny ≤ q.y ∧ q.y ≤ maxy)
    (hx : q.x = p.x + 0.05 * dy) (hpos : 0 < p.x) :
    ∃ m1 m2, markLoop c dy miny maxy false (fun _ => 0) (fun _ => 0) (p :: q :: rest) =
      (markLoop c dy miny maxy true m1 m2 rest).map (fun out => p :: out) := by
  have hlt : p.x < q.x := by
    rw [hx]; norm_num; exact hdy
  have hslurq : IsSlur c q = false := by
    simpa [IsSlur, href] using hslur
  have hdupq : MaybeDuplicate c q = true := by
    simpa [MaybeDuplicate, href] using hdup
  have hlq : LineInRange c q := by
    unfold LineInRange at hlr ⊢
    rw [← hline]; exact hlr
  obtain ⟨b1, b2⟩ := seed_below p q.x (le_of_lt hlt)
  have hr1 : ref1Block c dy q (mapSet (fun _ => 0) p.ref1 p.x) =
      some ({ q with piece_error := "Something is wrong" }, true,
        mapSet (mapSet (fun _ => 0) p.ref1 p.x) q.ref1 q.x) := by
    unfold ref1Block
    dsimp only
    have hm : mapSet (fun _ => (0 : ℚ)) p.ref1 p.x q.ref1 = p.x := by
      simp [mapSet, href]
    rw [hm, if_pos (href ▸ hnz), if_pos hpos, if_neg (not_not.mpr (le_of_lt hlt)),
      if_pos ⟨hdupq, by rw [hx]; norm_num; linarith⟩]
  obtain ⟨p2, m2, hr2, _, _⟩ := ref2Block_some dy
    { q with piece_error := "Something is wrong" }
    (if p.ref2 ≠ 0 then mapSet (fun _ => (0 : ℚ)) (p.ref2, p.line) p.x else fun _ => 0)
    (b2 _)
  refine ⟨mapSet (mapSet (fun _ => 0) p.ref1 p.x) q.ref1 q.x, m2, ?_⟩
  simp only [markLoop]
  rw [visitPiece_first c dy _ _ p hp hlr hyp hslur]
  dsimp only
  rw [if_pos hnz, visitPiece_checked c dy _ _ _ _ q hq hlq hyq hslurq, hr1]
  dsimp only
  rw [hr2]
  simp

/-- Two unlabeled in-range pieces of one duplicate-prone category, the second `0.05 * dy` to the
right of the first, the first at a positive x: the second is erased and the first is kept as it
entered. -/
theorem duplicate_pair (c : OcrConsts) (staff : Staff) (p q : Piece)
    (hdy : 0 < staff.dy) (hps : staff.piece = [p, q] ∨ staff.piece = [q, p])
    (hp : Unlabeled p) (hq : Unlabeled q) (href : p.ref1 = q.ref1) (hnz : p.ref1 ≠ 0)
    (hdup : MaybeDuplicate c p = true) (hslur : IsSlur c p = false)
    (hline : p.line = q.line) (hlr : LineInRange c p)
    (hyp : YInRange c staff p) (hyq : YInRange c staff q)
    (hx : q.x = p.x + 0.05 * staff.dy) (hpos : 0 < p.x) :
    sortStaff c staff = some { staff with piece := [p] } := by
  have hlt : p.x < q.x := by
    rw [hx]; norm_num; exact hdy
  obtain ⟨m1, m2, hm⟩ := markLoop_duplicate_head c staff.dy (minY c staff) (maxY c staff) p q []
    hdy hp hq href hnz hdup hslur hline hlr hyp hyq hx hpos
  rw [sortStaff_eq, stdSort_pair hlt staff.piece hps, hm]
  rfl

/-- The defect behind C4 and C10, for every assignment of the constants: when a duplicate pair
`p`, `q` is followed by a third piece `z`, the erase of `q` makes the loop step over `z`, and
`z` leaves validation exactly as it entered, whatever its fields are. -/
theorem erase_skips_next (c : OcrConsts) (staff : Staff) (p q z : Piece)
    (hdy : 0 < staff.dy) (hps : staff.piece = [p, q, z])
    (hp : Unlabeled p) (hq : Unlabeled q) (href : p.ref1 = q.ref1) (hnz : p.ref1 ≠ 0)
    (hdup : MaybeDuplicate c p = true) (hslur : IsSlur c p = false)
    (hline : p.line = q.line) (hlr : LineInRange c p)
    (hyp : YInRange c staff p) (hyq : YInRange c staff q)
    (hx : q.x = p.x + 0.05 * staff.dy) (hpos : 0 < p.x) (hz : q.x < z.x) :
    sortStaff c staff = some { staff with piece := [p, z] } := by
  have hlt : p.x < q.x := by
    rw [hx]; norm_num; exact hdy
  have hsort : stdSort pieceLess [p, q, z] = [p, q, z] := by
    have h1 : pieceLess q p = false := by
      simp [pieceLess, tupleLt, SortKey, hlt, not_lt.mpr (le_of_lt hlt), le_of_lt hlt]
    have h2 : pieceLess z q = false := by
      simp [pieceLess, tupleLt, SortKey, hz, not_lt.mpr (le_of_lt hz), le_of_lt hz]
    simp [stdSort, sortInsert, h1, h2]
  obtain ⟨m1, m2, hm⟩ := markLoop_duplicate_head c staff.dy (minY c staff) (maxY c staff) p q [z]
    hdy hp hq href hnz hdup hslur hline hlr hyp hyq hx hpos
  rw [sortStaff_eq, hps, hsort, hm]
  rfl

/-- Two unlabeled in-range pieces of one non-zero non-slur category, the second `0.5 * dy` to
the right of the first, the first at a positive x: both stay and the second is flagged. -/
theorem spacing_pair (c : OcrConsts) (staff : Staff) (p q : Piece)
    (h : TwoPieceStaff c staff p q 0.5) (hnz : p.ref1 ≠ 0) (hpos : 0 < p.x) :
    sortStaff c staff =
      some { staff with piece := [p, { q with piece_error := "x distance too low" }] } := by
  obtain ⟨hdy, hps, hp, hq, href, hslur, hlr, hlq, hyp, hyq, hx⟩ := h
  have hlt : p.x < q.x := by
    rw [hx]; norm_num; exact hdy
  have hslurq : IsSlur c q = false := by
    simpa [IsSlur, href] using hslur
  obtain ⟨b1, b2⟩ := seed_below p q.x (le_of_lt hlt)
  have hr1 : ref1Block c staff.dy q (mapSet (fun _ => 0) p.ref1 p.x) =
      some ({ q with piece_error := "x distance too low" }, false,
        mapSet (mapSet (fun _ => 0) p.ref1 p.x) q.ref1 q.x) := by
    unfold ref1Block
    dsimp only
    have hm : mapSet (fun _ => (0 : ℚ)) p.ref1 p.x q.ref1 = p.x := by
      simp [mapSet, href]
    rw [hm, if_pos (href ▸ hnz), if_pos hpos, if_neg (not_not.mpr (le_of_lt hlt)),
      if_neg (by
        rintro ⟨_, h2⟩
        rw [hx] at h2
        norm_num at h2
        linarith),
      if_pos (by rw [hx]; norm_num; linarith)]
  obtain ⟨m2, hr2⟩ := ref2Block_flagged staff.dy
    { q with piece_error := "x distance too low" }
    (if p.ref2 ≠ 0 then mapSet (fun _ => (0 : ℚ)) (p.ref2, p.line) p.x else fun _ => 0)
    rfl (b2 _)
  rw [sortStaff_eq, stdSort_pair hlt staff.piece hps]
  simp only [markLoop]
  rw [visitPiece_first c staff.dy _ _ p hp hlr hyp hslur]
  dsimp only
  rw [if_pos hnz, visitPiece_checked c staff.dy _ _ _ _ q hq hlq hyq hslurq, hr1]
  dsimp only
  rw [hr2]
  simp

theorem duplicate_pair_staff (c : OcrConsts) (staff : Staff) (p q : Piece)
    (h : TwoPieceStaff c staff p q 0.05) (hdup : MaybeDuplicate c p = true)
    (hline : p.line = q.line) (hnz : p.ref1 ≠ 0) (hpos : 0 < p.x) :
    sortStaff c staff = some { staff with piece := [p] } :=
  duplicate_pair c staff p q h.1 h.2.1 h.2.2.1 h.2.2.2.1 h.2.2.2.2.1 hnz hdup h.2.2.2.2.2.1
    hline h.2.2.2.2.2.2.1 h.2.2.2.2.2.2.2.2.1 h.2.2.2.2.2.2.2.2.2.1 h.2.2.2.2.2.2.2.2.2.2 hpos

/-! ## Claims C2 and C3 -/

/-- C2 (as the code has it): on a staff with `dy > 0` holding exactly two unlabeled in-range
pieces of the same non-zero duplicate-prone `ref1`, on the same line, `0.05 * dy` apart, with the
left one at a positive x, the sort-and-validate pass leaves exactly one piece, the left one, and
its `piece_error` stays empty (the flagged piece is the erased one). -/
theorem C2_duplicate_removed_survivor_unflagged (c : OcrConsts) (staff : Staff) (p q : Piece)
    (h : TwoPieceStaff c staff p q 0.05) (hdup : MaybeDuplicate c p = true)
    (hline : p.line = q.line) (hnz : p.ref1 ≠ 0) (hpos : 0 < p.x) :
    sortStaff c staff = some { staff with piece := [p] } ∧ p.piece_error = "" :=
  ⟨duplicate_pair_staff c staff p q h hdup hline hnz hpos, h.2.2.1.2⟩

theorem twoPieceStaff_sample (x gap : ℚ) (r : Int)
    (hr : IsSlur sampleConsts (samplePiece x 0 r) = false) :
    TwoPieceStaff sampleConsts
      (sampleStaff [samplePiece (x + gap) 0 r, samplePiece x 0 r])
      (samplePiece x 0 r) (samplePiece (x + gap) 0 r) gap := by
  refine ⟨?_, Or.inr rfl, ⟨rfl, rfl⟩, ⟨rfl, rfl⟩, rfl, hr, ?_, ?_, ?_, ?_, ?_⟩ <;>
    norm_num [sampleStaff, samplePiece, LineInRange, YInRange, minY, maxY, sampleConsts]

/-- Witness of C2: pieces of category 5 at x = 1 and x = 1.05 on the sample staff. -/
theorem C2_witness :
    sortStaff sampleConsts (sampleStaff [samplePiece (1 + 0.05) 0 5, samplePiece 1 0 5]) =
        some { sampleStaff [samplePiece (1 + 0.05) 0 5, samplePiece 1 0 5] with
               piece := [samplePiece 1 0 5] } ∧
      (samplePiece 1 0 5).piece_error = "" :=
  C2_duplicate_removed_survivor_unflagged sampleConsts _ (samplePiece 1 0 5)
    (samplePiece (1 + 0.05) 0 5) (twoPieceStaff_sample 1 0.05 5 (by decide)) (by decide) rfl
    (by decide) (by norm_num [samplePiece])

/-- Counterexample to C2 as stated: the sample staff with pieces of the duplicate-prone
category 5 at x = 1 and x = 1.05 satisfies the premises; one piece is removed, and the piece
that remains has an empty `piece_error`. -/
theorem C2_counterexample :
    TwoPieceStaff sampleConsts (sampleStaff [samplePiece (1 + 0.05) 0 5, samplePiece 1 0 5])
        (samplePiece 1 0 5) (samplePiece (1 + 0.05) 0 5) 0.05 ∧
      MaybeDuplicate sampleConsts (samplePiece 1 0 5) = true ∧
      sortStaff sampleConsts (sampleStaff [samplePiece (1 + 0.05) 0 5, samplePiece 1 0 5]) =
        some (sampleStaff [samplePiece 1 0 5]) ∧
      ∀ r ∈ (sampleStaff [samplePiece 1 0 5]).piece, r.piece_error = "" := by
  refine ⟨twoPieceStaff_sample 1 0.05 5 (by decide), by decide, ?_, ?_⟩
  · exact duplicate_pair_staff sampleConsts _ (samplePiece 1 0 5) (samplePiece (1 + 0.05) 0 5)
      (twoPieceStaff_sample 1 0.05 5 (by decide)) (by decide) rfl (by decide)
      (by norm_num [samplePiece])
  · intro r hr
    simp only [sampleStaff, List.mem_singleton] at hr
    rw [hr]
    rfl

/-- C3 (as the code has it): on a staff with `dy > 0` holding exactly two unlabeled in-range
pieces of the same non-zero non-slur `ref1`, exactly `0.5 * dy` apart, with the left one at a
positive x, the sort-and-validate pass keeps both pieces, flags the right one with
"x distance too low" and leaves the left one unflagged. -/
theorem C3_spacing_flagged_not_removed (c : OcrConsts) (staff : Staff) (p q : Piece)
    (h : TwoPieceStaff c staff p q 0.5) (hnz : p.ref1 ≠ 0) (hpos : 0 < p.x) :
    sortStaff c staff =
        some { staff with piece := [p, { q with piece_error := "x distance too low" }] } ∧
      p.piece_error = "" :=
  ⟨spacing_pair c staff p q h hnz hpos, h.2.2.1.2⟩

/-- Witness of C3: pieces of category 5 at x = 1 and x = 1.5 on the sample staff. -/
theorem C3_witness :
    sortStaff sampleConsts (sampleStaff [samplePiece (1 + 0.5) 0 5, samplePiece 1 0 5]) =
        some { sampleStaff [samplePiece (1 + 0.5) 0 5, samplePiece 1 0 5] with
               piece := [samplePiece 1 0 5,
                 { samplePiece (1 + 0.5) 0 5 with piece_error := "x distance too low" }] } ∧
      (samplePiece 1 0 5).piece_error = "" :=
  C3_spacing_flagged_not_removed sampleConsts _ (samplePiece 1 0 5) (samplePiece (1 + 0.5) 0 5)
    (twoPieceStaff_sample 1 0.5 5 (by decide)) (by decide) (by norm_num [samplePiece])

/-- Counterexample to C3 as stated: with the left piece at x = 0 the premises hold, and both
pieces come out with an empty `piece_error`. -/
theorem C3_counterexample :
    TwoPieceStaff sampleConsts (sampleStaff [samplePiece (0 + 0.5) 0 5, samplePiece 0 0 5])
        (samplePiece 0 0 5) (samplePiece (0 + 0.5) 0 5) 0.5 ∧
      (samplePiece 0 0 5).ref1 ≠ 0 ∧
      sortStaff sampleConsts (sampleStaff [samplePiece (0 + 0.5) 0 5, samplePiece 0 0 5]) =
        some (sampleStaff [samplePiece 0 0 5, samplePiece (0 + 0.5) 0 5]) ∧
      ∀ r ∈ (sampleStaff [samplePiece 0 0 5, samplePiece (0 + 0.5) 0 5]).piece,
        r.piece_error = "" := by
  refine ⟨twoPieceStaff_sample 0 0.5 5 (by decide), by decide, ?_, ?_⟩
  · norm_num [sortStaff, MarkUnsupported, markLoop, visitPiece, ref1Block, ref2Block, stdSort,
      sortInsert, pieceLess, tupleLt, SortKey, sampleStaff, samplePiece, minY, maxY,
      sampleConsts, IsSlur, MaybeDuplicate, mapSet]
  · intro r hr
    simp only [sampleStaff, List.mem_cons, List.mem_singleton, List.not_mem_nil, or_false] at hr
    rcases hr with rfl | rfl <;> rfl

/-! ## Claim C4 -/

/-- C4 at a failing input: on the sample staff the pieces of category 5 at x = 1 and x = 1.05
are followed by an unlabeled piece at x = 2 whose line -9 is below `MinLine` = -8. The duplicate
at x = 1.05 is erased, the loop index then steps over the piece that moved into its slot, and
the out-of-range piece leaves validation with an empty `piece_error`. -/
theorem C4_line_check_skipped_after_erase :
    (samplePiece 2 (-9) 40).line < sampleConsts.MinLine ∧
      Unlabeled (samplePiece 2 (-9) 40) ∧
      sortStaff sampleConsts
          (sampleStaff [samplePiece 1 0 5, samplePiece (1 + 0.05) 0 5, samplePiece 2 (-9) 40]) =
        some (sampleStaff [samplePiece 1 0 5, samplePiece 2 (-9) 40]) ∧
      (samplePiece 2 (-9) 40).piece_error = "" := by
  refine ⟨by decide, ⟨rfl, rfl⟩, ?_, rfl⟩
  norm_num [sortStaff, MarkUnsupported, markLoop, visitPiece, ref1Block, ref2Block, stdSort,
    sortInsert, pieceLess, tupleLt, SortKey, sampleStaff, samplePiece, minY, maxY,
    sampleConsts, IsSlur, MaybeDuplicate, mapSet]

/-! ## Facts about `updateStaff` -/

theorem xmin_eq_min (x y : ℚ) : xmin x y = min x y := by
  unfold xmin
  split_ifs with h
  · exact (min_eq_left (le_of_lt h)).symm
  · exact (min_eq_right (not_lt.mp h)).symm

theorem xmax_eq_max (x y : ℚ) : xmax x y = max x y := by
  unfold xmax
  split_ifs with h
  · exact (max_eq_left (le_of_lt h)).symm
  · exact (max_eq_right (not_lt.mp h)).symm

/-- A later fragment that agrees with the record on `y` and the line count widens it. -/
theorem updateStaff_widen (sl : StaffLines) (staff : Staff) (hc : sl.Checked)
    (hx : staff.x1 ≠ 0) (hy : staff.y = sl.topLineY)
    (hn : (sl.lines.length : Int) = staff.nlines) :
    updateStaff sl staff =
      some { staff with x0 := min staff.x0 sl.leftExtent,
                        x1 := max staff.x1 sl.rightExtent } := by
  obtain ⟨hne, hh⟩ := hc
  unfold updateStaff
  cases hl : sl.lines with
  | nil => exact absurd hl hne
  | cons line0 more =>
    have h0 : sl.line0 = line0 := by simp [StaffLines.line0, hl]
    rw [h0] at hh
    simp only [StaffLines.topLineY, StaffLines.leftExtent, StaffLines.rightExtent, h0] at *
    rw [hl] at hn
    rw [if_neg (not_not.mpr hh), if_neg hx, if_neg (not_not.mpr hy), if_neg (not_not.mpr hn),
      xmin_eq_min, xmax_eq_max]

/-- The first fragment initialises an empty-looking record. -/
theorem updateStaff_first (sl : StaffLines) (staff : Staff) (hc : sl.CheckedFirst)
    (hx : staff.x1 = 0) :
    updateStaff sl staff =
      some { staff with x0 := sl.leftExtent, x1 := sl.rightExtent, y := sl.topLineY,
                        nlines := (sl.lines.length : Int),
                        dy := if sl.lines.length = 1 then staff.dy else sl.lineGap } := by
  obtain ⟨⟨hne, hh⟩, hle, hgap⟩ := hc
  unfold updateStaff
  cases hl : sl.lines with
  | nil => exact absurd hl hne
  | cons line0 more =>
    have h0 : sl.line0 = line0 := by simp [StaffLines.line0, hl]
    rw [h0] at hh
    simp only [StaffLines.topLineY, StaffLines.leftExtent, StaffLines.rightExtent, h0] at *
    rw [if_neg (not_not.mpr hh), if_pos hx, if_neg (not_not.mpr hle)]
    cases more with
    | nil => simp
    | cons line1 more2 =>
      have hg : sl.lineGap = line1.y1 - line0.y1 := by simp [StaffLines.lineGap, hl]
      rw [hl, hg] at hgap
      have hpos := hgap (by simp)
      simp only [gt_iff_lt, hpos, if_true, hg]
      simp

theorem updateStaffAll_widen (fs : List StaffLines) :
    ∀ staff : Staff,
      (∀ g ∈ fs, g.Checked ∧ g.topLineY = staff.y ∧ (g.lines.length : Int) = staff.nlines) →
      NeverLooksEmpty staff.x1 (fs.map StaffLines.rightExtent) →
      updateStaffAll staff fs =
        some { staff with x0 := (fs.map StaffLines.leftExtent).foldl min staff.x0,
                          x1 := (fs.map StaffLines.rightExtent).foldl max staff.x1 } := by
  induction fs with
  | nil => intro staff _ _; rfl
  | cons g fs ih =>
    intro staff hall hne
    obtain ⟨hc, hy, hn⟩ := hall g (List.mem_cons_self _ _)
    simp only [List.map_cons, NeverLooksEmpty] at hne
    rw [updateStaffAll, updateStaff_widen g staff hc hne.1 hy.symm hn]
    exact ih { staff with x0 := min staff.x0 g.leftExtent, x1 := max staff.x1 g.rightExtent }
      (fun h hh => hall h (List.mem_cons_of_mem _ hh)) hne.2

/-! ## Claims C5 and C6 -/

/-- C5 (as the code has it): fragments `f :: fs` applied in turn to an empty record, where
every fragment passes its hard checks, all have the top-line page y and the line count of `f`,
and the accumulated `x1` is never `0` when a further fragment arrives. The calls all return,
and the final record has `x0` = the minimum of the left extents, `x1` = the maximum of the
right extents, and `y`, `dy`, `nlines` as the first fragment set them. -/
theorem C5_fragments_merge (f : StaffLines) (fs : List StaffLines) (hf : f.CheckedFirst)
    (hfs : ∀ g ∈ fs, g.Checked ∧ g.topLineY = f.topLineY ∧ g.lines.length = f.lines.length)
    (hne : NeverLooksEmpty f.rightExtent (fs.map StaffLines.rightExtent)) :
    updateStaffAll Staff.empty (f :: fs) =
      some { Staff.empty with
        x0 := (fs.map StaffLines.leftExtent).foldl min f.leftExtent,
        x1 := (fs.map StaffLines.rightExtent).foldl max f.rightExtent,
        y := f.topLineY, dy := f.lineGap, nlines := (f.lines.length : Int) } := by
  have hdy : (if f.lines.length = 1 then Staff.empty.dy else f.lineGap) = f.lineGap := by
    split_ifs with h1
    · unfold StaffLines.lineGap
      cases hl : f.lines with
      | nil => rfl
      | cons l0 more =>
        cases more with
        | nil => rfl
        | cons l1 more2 => rw [hl] at h1; simp at h1
    · rfl
  rw [updateStaffAll, updateStaff_first f Staff.empty hf rfl, hdy]
  dsimp only
  rw [updateStaffAll_widen fs _ (fun g hg => ⟨(hfs g hg).1, (hfs g hg).2.1, by
    rw [(hfs g hg).2.2]⟩) hne]

theorem sampleFragment_checkedFirst (a b px py : ℚ) (h : a ≤ b) :
    (sampleFragment a b px py).CheckedFirst := by
  refine ⟨⟨by simp [sampleFragment], by simp [sampleFragment, StaffLines.line0]⟩, ?_, ?_⟩
  · simpa [sampleFragment, StaffLines.line0, StaffLines.leftExtent, StaffLines.rightExtent]
      using h
  · intro _
    norm_num [sampleFragment, StaffLines.lineGap]

/-- Witness of C5: extents [0, 100] and [100, 250] merge into `x0 = 0`, `x1 = 250`. -/
theorem C5_witness :
    updateStaffAll Staff.empty [sampleFragment 0 100 0 50, sampleFragment 0 150 100 50] =
      some { Staff.empty with
        x0 := ([sampleFragment 0 150 100 50].map StaffLines.leftExtent).foldl min
          (sampleFragment 0 100 0 50).leftExtent,
        x1 := ([sampleFragment 0 150 100 50].map StaffLines.rightExtent).foldl max
          (sampleFragment 0 100 0 50).rightExtent,
        y := (sampleFragment 0 100 0 50).topLineY,
        dy := (sampleFragment 0 100 0 50).lineGap,
        nlines := ((sampleFragment 0 100 0 50).lines.length : Int) } :=
  C5_fragments_merge (sampleFragment 0 100 0 50) [sampleFragment 0 150 100 50]
    (sampleFragment_checkedFirst 0 100 0 50 (by norm_num))
    (by
      intro g hg
      rw [List.mem_singleton] at hg
      subst hg
      exact ⟨(sampleFragment_checkedFirst 0 150 100 50 (by norm_num)).1,
        by simp [sampleFragment, StaffLines.topLineY, StaffLines.line0],
        by simp [sampleFragment]⟩)
    (by
      norm_num [NeverLooksEmpty, sampleFragment, StaffLines.rightExtent, StaffLines.line0])

/-- The merged record of the two sample fragments, written out. -/
theorem sample_merge_value :
    updateStaffAll Staff.empty [sampleFragment 0 100 0 50, sampleFragment 0 150 100 50] =
      some { Staff.empty with x0 := 0, x1 := 250, y := 50, dy := 1, nlines := 5 } := by
  norm_num [updateStaffAll, updateStaff, sampleFragment, Staff.empty, xmin, xmax]

/-- Counterexample to C5 as stated: two five-line fragments with the same top-line y, with
extents [0, 0] and [100, 250]. After the first, `x1` is `0`, the record is taken for an empty
one, and the second fragment overwrites the extents: `x0` ends as `100`, not as the minimum
`0` of the left extents. -/
theorem C5_counterexample :
    (sampleFragment 0 0 0 50).topLineY = (sampleFragment 0 150 100 50).topLineY ∧
      (sampleFragment 0 0 0 50).lines.length = (sampleFragment 0 150 100 50).lines.length ∧
      updateStaffAll Staff.empty [sampleFragment 0 0 0 50, sampleFragment 0 150 100 50] =
        some { Staff.empty with x0 := 100, x1 := 250, y := 50, dy := 1, nlines := 5 } ∧
      min (sampleFragment 0 0 0 50).leftExtent (sampleFragment 0 150 100 50).leftExtent = 0 := by
  refine ⟨rfl, rfl, ?_, ?_⟩
  · norm_num [updateStaffAll, updateStaff, sampleFragment, Staff.empty, xmin, xmax]
  · norm_num [sampleFragment, StaffLines.leftExtent, StaffLines.line0]

theorem updateStaff_first_fields (f : StaffLines) (staff s : Staff) (hx : staff.x1 = 0)
    (h : updateStaff f staff = some s) :
    s.x0 = f.leftExtent ∧ s.x1 = f.rightExtent ∧ s.y = f.topLineY ∧
      s.nlines = (f.lines.length : Int) ∧ f.leftExtent ≤ f.rightExtent := by
  unfold updateStaff at h
  cases hl : f.lines with
  | nil => rw [hl] at h; cases h
  | cons line0 more =>
    have h0 : f.line0 = line0 := by simp [StaffLines.line0, hl]
    simp only [StaffLines.topLineY, StaffLines.leftExtent, StaffLines.rightExtent, h0]
    rw [hl] at h
    simp only [hx, if_true] at h
    split_ifs at h with ha hb
    cases more with
    | nil =>
      simp only [Option.some.injEq] at h
      subst h
      exact ⟨rfl, rfl, rfl, rfl, hb⟩
    | cons line1 more2 =>
      simp only at h
      split_ifs at h
      simp only [Option.some.injEq] at h
      subst h
      exact ⟨rfl, rfl, rfl, rfl, hb⟩

/-- C6 (as the code has it): when the first fragment has left the record with a non-zero `x1`
(a non-zero right page extent), a second fragment whose top-line page y or line count differs
from the first fragment's makes the second call abort. -/
theorem C6_mismatch_aborts (f1 f2 : StaffLines) (s1 : Staff)
    (h1 : updateStaff f1 Staff.empty = some s1) (hne : f1.rightExtent ≠ 0)
    (hdiff : f2.topLineY ≠ f1.topLineY ∨ f2.lines.length ≠ f1.lines.length) :
    updateStaff f2 s1 = none := by
  obtain ⟨_, hx1, hy, hn, _⟩ := updateStaff_first_fields f1 Staff.empty s1 rfl h1
  unfold updateStaff
  cases hl : f2.lines with
  | nil => rfl
  | cons line0 more =>
    have h0 : f2.line0 = line0 := by simp [StaffLines.line0, hl]
    simp only [StaffLines.topLineY, h0] at hdiff
    rw [hl] at hdiff
    have hx : ¬ s1.x1 = 0 := by rw [hx1]; exact hne
    dsimp only
    by_cases ha : line0.y1 ≠ line0.y2
    · rw [if_pos ha]
    · rw [if_neg ha, if_neg hx]
      by_cases hc : s1.y ≠ line0.y1 + f2.pagePos.2
      · rw [if_pos hc]
      · rw [if_neg hc]
        by_cases hd : ((line0 :: more).length : Int) ≠ s1.nlines
        · rw [if_pos hd]
        · exfalso
          rcases hdiff with hd1 | hd2
          · apply hd1
            show line0.y1 + f2.pagePos.2 = f1.topLineY
            rw [← hy]
            exact (not_not.mp hc).symm
          · apply hd2
            have h3 := not_not.mp hd
            rw [hn] at h3
            exact_mod_cast h3

/-- Witness of C6: a fragment at page y = 50 with extents [0, 100], then one at page y = 60. -/
theorem C6_witness :
    updateStaff (sampleFragment 0 150 100 60)
      { Staff.empty with x0 := 0, x1 := 100, y := 50, dy := 1, nlines := 5 } = none :=
  C6_mismatch_aborts (sampleFragment 0 100 0 50) (sampleFragment 0 150 100 60) _
    (by norm_num [updateStaff, sampleFragment, Staff.empty])
    (by norm_num [sampleFragment, StaffLines.rightExtent, StaffLines.line0])
    (Or.inl (by norm_num [sampleFragment, StaffLines.topLineY, StaffLines.line0]))

/-- Counterexample to C6 as stated: the first fragment has extents [0, 0] at page y = 50, the
second has page y = 60. The first call leaves `x1 = 0`; the second call then takes the record
for an empty one, returns, and has overwritten `y` with 60. -/
theorem C6_counterexample :
    updateStaff (sampleFragment 0 0 0 50) Staff.empty =
        some { Staff.empty with x0 := 0, x1 := 0, y := 50, dy := 1, nlines := 5 } ∧
      (sampleFragment 0 150 100 60).topLineY ≠ (sampleFragment 0 0 0 50).topLineY ∧
      updateStaff (sampleFragment 0 150 100 60)
          { Staff.empty with x0 := 0, x1 := 0, y := 50, dy := 1, nlines := 5 } =
        some { Staff.empty with x0 := 100, x1 := 250, y := 60, dy := 1, nlines := 5 } := by
  refine ⟨?_, ?_, ?_⟩
  · norm_num [updateStaff, sampleFragment, Staff.empty]
  · norm_num [sampleFragment, StaffLines.topLineY, StaffLines.line0]
  · norm_num [updateStaff, sampleFragment, Staff.empty]

/-! ## Facts about the staff loops -/

theorem updateStaff_geometry (sl : StaffLines) (s t : Staff) (h : updateStaff sl s = some t)
    (hs : s.x1 ≠ 0 → StaffGeometryOk s) : StaffGeometryOk t := by
  unfold updateStaff at h
  cases hl : sl.lines with
  | nil => rw [hl] at h; cases h
  | cons line0 more =>
    rw [hl] at h
    dsimp only at h
    by_cases ha : line0.y1 ≠ line0.y2
    · rw [if_pos ha] at h; cases h
    · rw [if_neg ha] at h
      by_cases hx : s.x1 = 0
      · rw [if_pos hx] at h
        by_cases hb : ¬ (line0.x1 + sl.pagePos.1 ≤ line0.x2 + sl.pagePos.1)
        · rw [if_pos hb] at h; cases h
        · rw [if_neg hb] at h
          cases more with
          | nil =>
            simp only [Option.some.injEq] at h
            subst h
            refine ⟨by simp, not_not.mp hb, ?_⟩
            intro h2
            simp at h2
          | cons line1 more2 =>
            simp only at h
            split_ifs at h with hd
            simp only [Option.some.injEq] at h
            subst h
            refine ⟨?_, not_not.mp hb, fun _ => hd⟩
            simp only [List.length_cons]
            push_cast
            linarith [Int.natCast_nonneg more2.length]
      · rw [if_neg hx] at h
        split_ifs at h
        simp only [Option.some.injEq] at h
        subst h
        obtain ⟨h1, h2, h3⟩ := hs hx
        refine ⟨h1, ?_, h3⟩
        dsimp only
        rw [xmin_eq_min, xmax_eq_max]
        exact le_trans (min_le_left _ _) (le_trans h2 (le_max_left _ _))

theorem updateEntry_geometry (sl : StaffLines) (ss : Nat) (table out : StaffTable)
    (h : updateEntry sl ss table = some out) (ht : ∀ e ∈ table, StaffGeometryOk e.2) :
    ∀ e ∈ out, StaffGeometryOk e.2 := by
  induction table generalizing out with
  | nil =>
    simp only [updateEntry, Option.map_eq_some'] at h
    obtain ⟨s, hs, rfl⟩ := h
    intro e he
    rw [List.mem_singleton] at he
    subst he
    exact updateStaff_geometry sl Staff.empty s hs (fun hx => absurd rfl hx)
  | cons head rest ih =>
    obtain ⟨k, ms⟩ := head
    simp only [updateEntry] at h
    split_ifs at h with hk
    · simp only [Option.map_eq_some'] at h
      obtain ⟨s, hs, rfl⟩ := h
      intro e he
      rcases List.mem_cons.mp he with rfl | he
      · exact updateStaff_geometry sl ms s hs (fun _ => ht (k, ms) (List.mem_cons_self _ _))
      · exact ht e (List.mem_cons_of_mem _ he)
    · simp only [Option.map_eq_some'] at h
      obtain ⟨o, ho, rfl⟩ := h
      intro e he
      rcases List.mem_cons.mp he with rfl | he
      · exact ht (k, ms) (List.mem_cons_self _ _)
      · exact ih o ho (fun e he => ht e (List.mem_cons_of_mem _ he)) e he

theorem accumulateStep_geometry (table out : StaffTable) (el : Element)
    (h : accumulateStep table el = some out) (ht : ∀ e ∈ table, StaffGeometryOk e.2) :
    ∀ e ∈ out, StaffGeometryOk e.2 := by
  unfold accumulateStep at h
  split_ifs at h
  · simp only [Option.some.injEq] at h
    subst h
    exact ht
  · split at h
    · simp only [Option.some.injEq] at h
      subst h
      exact ht
    · split at h
      · cases h
      · exact updateEntry_geometry _ _ table out h ht

theorem accumulateStaves_geometry (vel : List Element) :
    ∀ (table out : StaffTable), accumulateStaves table vel = some out →
      (∀ e ∈ table, StaffGeometryOk e.2) → ∀ e ∈ out, StaffGeometryOk e.2 := by
  induction vel with
  | nil =>
    intro table out h ht
    simp only [accumulateStaves, Option.some.injEq] at h
    subst h
    exact ht
  | cons el rest ih =>
    intro table out h ht
    simp only [accumulateStaves] at h
    split at h
    · cases h
    · rename_i table1 h1
      exact ih table1 out h (accumulateStep_geometry table table1 el h1 ht)

theorem scaleStaff_fields (mag : ℚ) (ms : Staff) :
    (scaleStaff mag ms).x0 = ms.x0 ∧ (scaleStaff mag ms).x1 = ms.x1 * mag ∧
      (scaleStaff mag ms).x2 = ms.x2 * mag ∧ (scaleStaff mag ms).y = ms.y * mag ∧
      (scaleStaff mag ms).dy = ms.dy * mag ∧ (scaleStaff mag ms).nlines = ms.nlines ∧
      (scaleStaff mag ms).piece = ms.piece :=
  ⟨rfl, rfl, rfl, rfl, rfl, rfl, rfl⟩

/-! ## Claims C7 and C8 -/

/-- C7 (as the code has it): when the first loop of `savePiecesProto` does not abort and
`mag > 0`, every accumulated staff has `x0 <= x1`, and after the scaling loop every staff has
`nlines >= 1` and, if it has at least two lines, `dy > 0`. -/
theorem C7_staff_geometry (vel : List Element) (mag : ℚ) (table : StaffTable)
    (hmag : 0 < mag) (h : accumulateStaves [] vel = some table) :
    scaledStaves vel mag = some (table.map (fun e => (e.1, scaleStaff mag e.2))) ∧
      ∀ e ∈ table, e.2.x0 ≤ e.2.x1 ∧ 1 ≤ (scaleStaff mag e.2).nlines ∧
        (2 ≤ (scaleStaff mag e.2).nlines → 0 < (scaleStaff mag e.2).dy) := by
  refine ⟨by simp [scaledStaves, h], ?_⟩
  intro e he
  obtain ⟨h1, h2, h3⟩ := accumulateStaves_geometry vel [] table h
    (fun e he => absurd he (List.not_mem_nil e)) e he
  exact ⟨h2, h1, fun hn => mul_pos (h3 hn) hmag⟩

theorem sample_accumulate (sl : StaffLines) (s : Staff)
    (h : updateStaff sl Staff.empty = some s) :
    accumulateStaves [] [sampleStaffLinesElement 1 sl] = some [(7, s)] := by
  simp [accumulateStaves, accumulateStep, sampleStaffLinesElement, FindSysStaff, updateEntry, h]

/-- Witness of C7: one five-line fragment with extents [0, 100], exported with `mag = 2`. -/
theorem C7_witness :
    scaledStaves [sampleStaffLinesElement 1 (sampleFragment 0 100 0 50)] 2 =
        some ([((7 : Nat), { Staff.empty with x0 := 0, x1 := 100, y := 50, dy := 1,
                                              nlines := 5 })].map
          (fun e => (e.1, scaleStaff 2 e.2))) ∧
      ∀ e ∈ [((7 : Nat), { Staff.empty with x0 := 0, x1 := 100, y := 50, dy := 1,
                                            nlines := 5 })],
        e.2.x0 ≤ e.2.x1 ∧ 1 ≤ (scaleStaff 2 e.2).nlines ∧
          (2 ≤ (scaleStaff 2 e.2).nlines → 0 < (scaleStaff 2 e.2).dy) :=
  C7_staff_geometry [sampleStaffLinesElement 1 (sampleFragment 0 100 0 50)] 2 _ (by norm_num)
    (sample_accumulate _ _ (by norm_num [updateStaff, sampleFragment, Staff.empty]))

/-- Counterexample to C7 as stated: a single visible one-line fragment with extents [0, 100],
exported with `mag = 1`. The export does not abort, and its only staff ends with `dy = 0`. -/
theorem C7_counterexample :
    (oneLineFragment 0 100 0 50).lines.length = 1 ∧
      scaledStaves [sampleStaffLinesElement 1 (oneLineFragment 0 100 0 50)] 1 =
        some [(7, { Staff.empty with x0 := 0, x1 := 100, y := 50, dy := 0, nlines := 1 })] ∧
      ¬ (0 < ({ Staff.empty with x0 := 0, x1 := 100, y := 50, dy := 0, nlines := 1 } :
        Staff).dy) := by
  refine ⟨rfl, ?_, by norm_num⟩
  rw [scaledStaves, sample_accumulate (oneLineFragment 0 100 0 50)
    { Staff.empty with x0 := 0, x1 := 100, y := 50, nlines := 1 }
    (by norm_num [updateStaff, oneLineFragment, Staff.empty])]
  norm_num [scaleStaff, Staff.empty]

/-- C8 (as the code has it): the scaling step multiplies `x1`, `dy` and also `y` by `mag`. -/
theorem C8_scaling (mag : ℚ) (ms : Staff) :
    (scaleStaff mag ms).x1 = ms.x1 * mag ∧ (scaleStaff mag ms).dy = ms.dy * mag ∧
      (scaleStaff mag ms).y = ms.y * mag :=
  ⟨rfl, rfl, rfl⟩

/-- Counterexample to C8 as stated: a staff at `y = 50` scaled with `mag = 2` ends at
`y = 100`, not at the accumulated `y`. -/
theorem C8_counterexample :
    (scaleStaff 2 { Staff.empty with x0 := 0, x1 := 100, y := 50, dy := 1, nlines := 5 }).y
        = 100 ∧
      (scaleStaff 2 { Staff.empty with x0 := 0, x1 := 100, y := 50, dy := 1, nlines := 5 }).y
        ≠ ({ Staff.empty with x0 := 0, x1 := 100, y := 50, dy := 1, nlines := 5 } : Staff).y := by
  norm_num [scaleStaff, Staff.empty]

/-! ## Sorting and input order -/

theorem stdSort_eq_of_perm {α K : Type} [LinearOrder K] (less : α → α → Bool) (key : α → K)
    (hless : ∀ a b, less a b = true ↔ key a < key b) {l l2 : List α} (hp : l.Perm l2)
    (hn : (l.map key).Nodup) : stdSort less l = stdSort less l2 := by
  have strict : ∀ m : List α, m.Perm l →
      (stdSort less m).Pairwise (fun a b => key a < key b) := by
    intro m hm
    have hs := stdSort_sorted less key hless m
    have hnd : ((stdSort less m).map key).Nodup :=
      (((stdSort_perm less m).trans hm).map key).nodup_iff.mpr hn
    have hne : (stdSort less m).Pairwise (fun a b => key a ≠ key b) := by
      rw [List.Nodup, List.pairwise_map] at hnd
      exact hnd
    exact (hs.and hne).imp (fun h => lt_of_le_of_ne h.1 h.2)
  have hperm : (stdSort less l).Perm (stdSort less l2) :=
    (stdSort_perm less l).trans (hp.trans (stdSort_perm less l2).symm)
  exact @List.eq_of_perm_of_sorted α (fun a b => key a < key b)
    ⟨fun a b h1 h2 => absurd h1 (lt_asymm h2)⟩ _ _ hperm (strict l (List.Perm.refl l))
    (strict l2 hp.symm)

theorem sortInsert_forall₂ {α : Type} (less : α → α → Bool) (R : α → α → Prop)
    (hR : ∀ a a2 b b2, R a a2 → R b b2 → less a b = less a2 b2) {v v2 : α} (hv : R v v2)
    {l l2 : List α} (h : List.Forall₂ R l l2) :
    List.Forall₂ R (sortInsert less v l) (sortInsert less v2 l2) := by
  induction h with
  | nil => exact List.Forall₂.cons hv List.Forall₂.nil
  | cons hab hrest ih =>
    simp only [sortInsert]
    rw [hR _ _ _ _ hab hv]
    split
    · exact List.Forall₂.cons hab ih
    · exact List.Forall₂.cons hv (List.Forall₂.cons hab hrest)

theorem stdSort_forall₂ {α : Type} (less : α → α → Bool) (R : α → α → Prop)
    (hR : ∀ a a2 b b2, R a a2 → R b b2 → less a b = less a2 b2) {l l2 : List α}
    (h : List.Forall₂ R l l2) : List.Forall₂ R (stdSort less l) (stdSort less l2) := by
  induction h with
  | nil => exact List.Forall₂.nil
  | cons hab _ ih =>
    simp only [stdSort]
    exact sortInsert_forall₂ less R hR hab ih

theorem lexKey_nodup {ps : List Piece} (h : (ps.map SortKey).Nodup) :
    (ps.map lexKey).Nodup := by
  have hinj : Function.Injective
      (fun k : ℚ × Int × ℚ => (toLex (k.1, toLex (k.2.1, k.2.2)) : ℚ ×ₗ (Int ×ₗ ℚ))) := by
    intro a b hab
    simp only [EmbeddingLike.apply_eq_iff_eq, Prod.mk.injEq] at hab
    exact Prod.ext hab.1 (Prod.ext hab.2.1 hab.2.2)
  have := h.map hinj
  rw [List.map_map] at this
  exact this

theorem sortStaff_permuted (c : OcrConsts) {s t : Staff} (h : StaffPermuted s t)
    (hn : (s.piece.map SortKey).Nodup) : sortStaff c s = sortStaff c t := by
  obtain ⟨ps, hp, rfl⟩ := h
  have e : stdSort pieceLess s.piece = stdSort pieceLess ps :=
    stdSort_eq_of_perm pieceLess lexKey pieceLess_iff hp.symm (lexKey_nodup hn)
  simp only [sortStaff]
  rw [e]

theorem sortStaves_permuted (c : OcrConsts) {A B : List Staff}
    (h : List.Forall₂ StaffPermuted A B) (hn : ∀ s ∈ A, (s.piece.map SortKey).Nodup) :
    sortStaves c A = sortStaves c B := by
  induction h with
  | nil => rfl
  | cons hab _ ih =>
    simp only [sortStaves]
    rw [sortStaff_permuted c hab (hn _ (List.mem_cons_self _ _)),
      ih (fun s hs => hn s (List.mem_cons_of_mem _ hs))]

theorem staffPermuted_y {s t : Staff} (h : StaffPermuted s t) : t.y = s.y := by
  obtain ⟨ps, _, rfl⟩ := h
  rfl

theorem sortLayout_permuted (c : OcrConsts) (L1 L2 : Layout) (hperm : LayoutPermuted L1 L2)
    (hd : DistinctKeys L1) : SortLayout c L1 = SortLayout c L2 := by
  obtain ⟨M, hM, hf⟩ := hperm
  obtain ⟨hy, hk⟩ := hd
  have e1 : stdSort staffLess L1.staff = stdSort staffLess M :=
    stdSort_eq_of_perm staffLess Staff.y staffLess_iff hM.symm hy
  have hf2 : List.Forall₂ StaffPermuted (stdSort staffLess M) (stdSort staffLess L2.staff) :=
    stdSort_forall₂ staffLess StaffPermuted (by
      intro a a2 b b2 ha hb
      simp only [staffLess, staffPermuted_y ha, staffPermuted_y hb]) hf
  have hk2 : ∀ s ∈ stdSort staffLess M, (s.piece.map SortKey).Nodup := fun s hs =>
    hk s (hM.subset ((stdSort_perm staffLess M).subset hs))
  simp only [SortLayout]
  rw [e1, sortStaves_permuted c hf2 hk2]

/-! ## Claim C9 -/

/-- C9 (as the code has it): when no two staves of `L1` share a `y` and no two pieces of a
staff share a sort key `(x, line, y)`, every layout `L2` obtained from `L1` by permuting the
staves and permuting the pieces inside each staff gives `SortLayout(L2) = SortLayout(L1)`. -/
theorem C9_order_independent_distinct_keys (c : OcrConsts) (L1 L2 : Layout)
    (hperm : LayoutPermuted L1 L2) (hd : DistinctKeys L1) :
    SortLayout c L1 = SortLayout c L2 :=
  sortLayout_permuted c L1 L2 hperm hd

theorem sample_layoutPermuted (a b : Piece) :
    LayoutPermuted { staff := [sampleStaff [a, b]] } { staff := [sampleStaff [b, a]] } :=
  ⟨[sampleStaff [a, b]], List.Perm.refl _,
    List.Forall₂.cons ⟨[b, a], List.Perm.swap a b [], rfl⟩ List.Forall₂.nil⟩

/-- Witness of C9: one staff with pieces at x = 1 and x = 2, given in either order. -/
theorem C9_witness :
    SortLayout sampleConsts { staff := [sampleStaff [samplePiece 1 0 5, samplePiece 2 0 5]] } =
      SortLayout sampleConsts { staff := [sampleStaff [samplePiece 2 0 5, samplePiece 1 0 5]] } :=
  C9_order_independent_distinct_keys sampleConsts _ _
    (sample_layoutPermuted (samplePiece 1 0 5) (samplePiece 2 0 5))
    ⟨by simp, by
      intro s hs
      simp only [List.mem_singleton] at hs
      subst hs
      norm_num [sampleStaff, samplePiece, SortKey]⟩

/-- Counterexample to C9 as stated: one staff with two pieces that share the sort key
`(1, 0, 10)` and differ in `ref1` (5 and 40). Given as `[a, b]` they come out as `[a, b]`;
given as `[b, a]` they come out as `[b, a]`. -/
theorem C9_counterexample :
    LayoutPermuted { staff := [sampleStaff [samplePiece 1 0 5, samplePiece 1 0 40]] }
        { staff := [sampleStaff [samplePiece 1 0 40, samplePiece 1 0 5]] } ∧
      SortLayout sampleConsts
          { staff := [sampleStaff [samplePiece 1 0 5, samplePiece 1 0 40]] } =
        some { staff := [sampleStaff [samplePiece 1 0 5, samplePiece 1 0 40]] } ∧
      SortLayout sampleConsts
          { staff := [sampleStaff [samplePiece 1 0 40, samplePiece 1 0 5]] } =
        some { staff := [sampleStaff [samplePiece 1 0 40, samplePiece 1 0 5]] } ∧
      SortLayout sampleConsts
          { staff := [sampleStaff [samplePiece 1 0 5, samplePiece 1 0 40]] } ≠
        SortLayout sampleConsts
          { staff := [sampleStaff [samplePiece 1 0 40, samplePiece 1 0 5]] } := by
  have e1 : SortLayout sampleConsts
      { staff := [sampleStaff [samplePiece 1 0 5, samplePiece 1 0 40]] } =
      some { staff := [sampleStaff [samplePiece 1 0 5, samplePiece 1 0 40]] } := by
    norm_num [SortLayout, sortStaves, sortStaff, MarkUnsupported, markLoop, visitPiece,
      ref1Block, ref2Block, stdSort, sortInsert, pieceLess, tupleLt, SortKey, sampleStaff,
      samplePiece, minY, maxY, sampleConsts, IsSlur, MaybeDuplicate, mapSet]
  have e2 : SortLayout sampleConsts
      { staff := [sampleStaff [samplePiece 1 0 40, samplePiece 1 0 5]] } =
      some { staff := [sampleStaff [samplePiece 1 0 40, samplePiece 1 0 5]] } := by
    norm_num [SortLayout, sortStaves, sortStaff, MarkUnsupported, markLoop, visitPiece,
      ref1Block, ref2Block, stdSort, sortInsert, pieceLess, tupleLt, SortKey, sampleStaff,
      samplePiece, minY, maxY, sampleConsts, IsSlur, MaybeDuplicate, mapSet]
  refine ⟨sample_layoutPermuted _ _, e1, e2, ?_⟩
  rw [e1, e2]
  simp [sampleStaff, samplePiece]

/-! ## Claim C10 -/

/-- A piece that enters with a non-empty `name` or `piece_error` passes the loop body as it is:
it is not erased, not changed, and the tracked x values stay as they were. -/
theorem visitPiece_labeled (c : OcrConsts) (dy miny maxy : ℚ) (xref1 : XRef1) (xref2 : XRef2)
    (p : Piece) (h : p.name ≠ "" ∨ p.piece_error ≠ "") :
    visitPiece c dy miny maxy xref1 xref2 p =
      some { piece := p, erased := false, xref1 := xref1, xref2 := xref2 } := by
  unfold visitPiece
  rw [if_pos h]

theorem markLoop_labeled_mem (c : OcrConsts) (dy miny maxy : ℚ) (p : Piece)
    (hl : p.name ≠ "" ∨ p.piece_error ≠ "") (ps : List Piece) :
    ∀ (skip : Bool) (xref1 : XRef1) (xref2 : XRef2) (out : List Piece),
      markLoop c dy miny maxy skip xref1 xref2 ps = some out → p ∈ ps → p ∈ out := by
  induction ps with
  | nil => intro _ _ _ _ _ hp; cases hp
  | cons a rest ih =>
    intro skip xref1 xref2 out h hp
    cases skip with
    | true =>
      simp only [markLoop, Option.map_eq_some'] at h
      obtain ⟨o, ho, rfl⟩ := h
      rcases List.mem_cons.mp hp with rfl | hp
      · exact List.mem_cons_self _ _
      · exact List.mem_cons_of_mem _ (ih false xref1 xref2 o ho hp)
    | false =>
      simp only [markLoop] at h
      cases hv : visitPiece c dy miny maxy xref1 xref2 a with
      | none => rw [hv] at h; cases h
      | some v =>
        rw [hv] at h
        dsimp only at h
        rcases List.mem_cons.mp hp with rfl | hp
        · rw [visitPiece_labeled c dy miny maxy xref1 xref2 p hl] at hv
          cases hv
          simp only [Bool.false_eq_true, if_false, Option.map_eq_some'] at h
          obtain ⟨o, _, rfl⟩ := h
          exact List.mem_cons_self _ _
        · by_cases he : v.erased = true
          · rw [if_pos he] at h
            exact ih true v.xref1 v.xref2 out h hp
          · rw [if_neg he] at h
            simp only [Option.map_eq_some'] at h
            obtain ⟨o, ho, rfl⟩ := h
            exact List.mem_cons_of_mem _ (ih false v.xref1 v.xref2 o ho hp)

/-- A piece that enters with a non-empty `name` or `piece_error` is still in the staff after
the sort-and-validate pass, with all of its fields as they were. -/
theorem labeled_piece_kept (c : OcrConsts) (staff : Staff) (p : Piece) (hp : p ∈ staff.piece)
    (hl : p.name ≠ "" ∨ p.piece_error ≠ "") :
    ∃ out, sortStaff c staff = some { staff with piece := out } ∧ p ∈ out := by
  obtain ⟨out, ho, _⟩ := sortStaff_some c staff
  refine ⟨out, ho, ?_⟩
  rw [sortStaff_eq, Option.map_eq_some'] at ho
  obtain ⟨o, hm, he⟩ := ho
  have e : o = out := by
    have := congrArg Staff.piece he
    exact this
  subst e
  exact markLoop_labeled_mem c staff.dy _ _ p hl _ false _ _ o hm
    ((stdSort_perm pieceLess staff.piece).mem_iff.mpr hp)

/-- C10 at a failing input: the sample staff holds pieces of category 5 at x = 1 and x = 1.05,
a piece labelled "Clef" at x = 1.5, and an unlabeled piece at x = 2 on line 17, above
`MaxLine` = 16. With the labelled piece present, the duplicate at 1.05 is erased, the loop index
steps over the labelled piece, and the piece at x = 2 is examined and flagged
"Line outside range". With the labelled piece taken out of the input, the index steps over the
piece at x = 2 instead, and it comes out unflagged. -/
theorem C10_labeled_piece_absorbs_the_skip :
    sortStaff sampleConsts
        (sampleStaff [samplePiece 1 0 5, samplePiece (1 + 0.05) 0 5, labeledPiece 1.5 "Clef",
          samplePiece 2 17 40]) =
      some (sampleStaff [samplePiece 1 0 5, labeledPiece 1.5 "Clef",
        { samplePiece 2 17 40 with piece_error := "Line outside range" }]) ∧
    sortStaff sampleConsts
        (sampleStaff [samplePiece 1 0 5, samplePiece (1 + 0.05) 0 5, samplePiece 2 17 40]) =
      some (sampleStaff [samplePiece 1 0 5, samplePiece 2 17 40]) := by
  constructor <;>
    norm_num [sortStaff, MarkUnsupported, markLoop, visitPiece, ref1Block, ref2Block, stdSort,
      sortInsert, pieceLess, tupleLt, SortKey, sampleStaff, samplePiece, labeledPiece, minY,
      maxY, sampleConsts, IsSlur, MaybeDuplicate, mapSet]

/-! ## Claim C11 -/

theorem nearestSystem_iff_find (chain : List ChainLink) (sys : ChainLink) :
    NearestSystem chain sys ↔ chain.find? (fun x => x.isSystem) = some sys := by
  rw [List.find?_eq_some]
  unfold NearestSystem
  constructor
  · rintro ⟨before, after, hc, hb, hs⟩
    exact ⟨hs, before, after, hc, fun a ha => by simp [hb a ha]⟩
  · rintro ⟨hs, before, after, hc, hb⟩
    exact ⟨before, after, hc, fun a ha => by simpa using hb a ha, hs⟩

/-- C11: `FindSysStaff(p)` returns "no staff" exactly when there is no system among `p` and its
ancestors, or the staff index of `p` is negative, or it is at least the number of staves of the
nearest enclosing system; otherwise it returns the staff with that index of the nearest
enclosing system. -/
theorem C11_FindSysStaff (p : Element) :
    (FindSysStaff p = none ↔
      ((∀ x ∈ p.chain, x.isSystem = false) ∨ p.staffIdx < 0 ∨
        ∃ sys, NearestSystem p.chain sys ∧ (sys.staves.length : Int) ≤ p.staffIdx)) ∧
    (∀ sys, NearestSystem p.chain sys → 0 ≤ p.staffIdx →
      p.staffIdx < (sys.staves.length : Int) →
      ∃ ss, sys.staves[p.staffIdx.toNat]? = some ss ∧ FindSysStaff p = some ss) := by
  have hget : ∀ sys : ChainLink, 0 ≤ p.staffIdx → p.staffIdx < (sys.staves.length : Int) →
      ∃ ss, sys.staves[p.staffIdx.toNat]? = some ss := by
    intro sys h0 h1
    have hlt : p.staffIdx.toNat < sys.staves.length := by omega
    exact ⟨sys.staves[p.staffIdx.toNat], List.getElem?_eq_getElem hlt⟩
  constructor
  · unfold FindSysStaff
    cases hf : p.chain.find? (fun x => x.isSystem) with
    | none =>
      simp only [true_iff]
      left
      intro x hx
      have := List.find?_eq_none.mp hf x hx
      simpa using this
    | some sys =>
      have hns := (nearestSystem_iff_find p.chain sys).mpr hf
      dsimp only
      constructor
      · intro h
        by_cases hc : p.staffIdx < 0 ∨ p.staffIdx ≥ (sys.staves.length : Int)
        · rcases hc with hc | hc
          · exact Or.inr (Or.inl hc)
          · exact Or.inr (Or.inr ⟨sys, hns, hc⟩)
        · rw [if_neg hc] at h
          rw [not_or, not_lt, not_le] at hc
          obtain ⟨ss, hss⟩ := hget sys hc.1 hc.2
          rw [hss] at h
          cases h
      · rintro (h | h | ⟨sys2, hns2, hge⟩)
        · have hs := h sys (by
            obtain ⟨before, after, hc, _, _⟩ := hns
            rw [hc]; simp)
          obtain ⟨_, _, _, _, ht⟩ := hns
          rw [hs] at ht
          cases ht
        · rw [if_pos (Or.inl h)]
        · have e : sys2 = sys := by
            have := (nearestSystem_iff_find p.chain sys2).mp hns2
            rw [hf] at this
            exact (Option.some.inj this).symm
          rw [e] at hge
          rw [if_pos (Or.inr hge)]
  · intro sys hns h0 h1
    obtain ⟨ss, hss⟩ := hget sys h0 h1
    refine ⟨ss, hss, ?_⟩
    unfold FindSysStaff
    rw [(nearestSystem_iff_find p.chain sys).mp hns]
    dsimp only
    rw [if_neg (by rw [not_or, not_lt, not_le]; exact ⟨h0, h1⟩), hss]

/-! ## Claim C12 -/

theorem pushLines_length (x1 x2 dist : ℚ) (n : Nat) :
    ∀ y, (pushLines x1 x2 dist n y).length = n := by
  induction n with
  | zero => intro y; rfl
  | succ n ih => intro y; simp [pushLines, ih]

theorem pushLines_getElem? (x1 x2 dist : ℚ) (n : Nat) :
    ∀ (y : ℚ) (i : Nat), i < n →
      (pushLines x1 x2 dist n y)[i]? =
        some { x1 := x1, y1 := y + i * dist, x2 := x2, y2 := y + i * dist } := by
  induction n with
  | zero => intro y i hi; omega
  | succ n ih =>
    intro y i hi
    cases i with
    | zero => simp [pushLines]
    | succ i =>
      simp only [pushLines, List.getElem?_cons_succ]
      rw [ih (y + dist) i (by omega)]
      push_cast
      congr 2 <;> ring

/-- C12: for a staff type with `n >= 1` lines, line distance `d` and vertical offset `yoffset`,
a spatium `s` and a width `w`, `layoutForWidth(w)` produces exactly `n` segments, and segment
`i` runs horizontally from `x = 0` to `x = w` at height `y0 + i * (s * d)` with
`y0 = yoffset * s`; without a staff it produces exactly 5 segments, at heights `i * s`; a
one-line staff gets exactly one segment. -/
theorem C12_layoutForWidth (t : StaffType) (s w : ℚ) (hn : 1 ≤ t.lines) :
    ((layoutForWidth (some t) s w).length : Int) = t.lines ∧
    (∀ i : Nat, (i : Int) < t.lines →
      (layoutForWidth (some t) s w)[i]? =
        some { x1 := 0, y1 := t.yoffset * s + i * (s * t.lineDistance), x2 := w,
               y2 := t.yoffset * s + i * (s * t.lineDistance) }) ∧
    (layoutForWidth none s w).length = 5 ∧
    (∀ i : Nat, i < 5 →
      (layoutForWidth none s w)[i]? = some { x1 := 0, y1 := i * s, x2 := w, y2 := i * s }) ∧
    (t.lines = 1 → (layoutForWidth (some t) s w).length = 1) := by
  have hlen : (layoutForWidth (some t) s w).length = t.lines.toNat := by
    simp [layoutForWidth, pushLines_length]
  refine ⟨?_, ?_, ?_, ?_, ?_⟩
  · rw [hlen]
    omega
  · intro i hi
    have := pushLines_getElem? 0 (0 + w) (s * t.lineDistance) t.lines.toNat (t.yoffset * s) i
      (by omega)
    simpa [layoutForWidth] using this
  · simp [layoutForWidth, pushLines_length]
  · intro i hi
    have := pushLines_getElem? 0 (0 + w) s 5 0 i hi
    simpa [layoutForWidth] using this
  · intro h1
    rw [hlen, h1]
    rfl

/-- Witness of C12: the five-line sample staff type, spatium 2, width 100. -/
theorem C12_witness :
    ((layoutForWidth (some sampleStaffType) 2 100).length : Int) = sampleStaffType.lines ∧
    (∀ i : Nat, (i : Int) < sampleStaffType.lines →
      (layoutForWidth (some sampleStaffType) 2 100)[i]? =
        some { x1 := 0,
               y1 := sampleStaffType.yoffset * 2 + i * (2 * sampleStaffType.lineDistance),
               x2 := 100,
               y2 := sampleStaffType.yoffset * 2 + i * (2 * sampleStaffType.lineDistance) }) ∧
    (layoutForWidth none 2 100).length = 5 ∧
    (∀ i : Nat, i < 5 →
      (layoutForWidth none 2 100)[i]? = some { x1 := 0, y1 := i * 2, x2 := 100, y2 := i * 2 }) ∧
    (sampleStaffType.lines = 1 → (layoutForWidth (some sampleStaffType) 2 100).length = 1) :=
  C12_layoutForWidth sampleStaffType 2 100 (by decide)

/-- The segments of the sample staff type at spatium 2 and width 100, written out. -/
theorem sample_layoutForWidth :
    layoutForWidth (some sampleStaffType) 2 100 =
      [{ x1 := 0, y1 := 0, x2 := 100, y2 := 0 }, { x1 := 0, y1 := 2, x2 := 100, y2 := 2 },
       { x1 := 0, y1 := 4, x2 := 100, y2 := 4 }, { x1 := 0, y1 := 6, x2 := 100, y2 := 6 },
       { x1 := 0, y1 := 8, x2 := 100, y2 := 8 }] := by
  norm_num [layoutForWidth, sampleStaffType, pushLines]

/-! ## Claim C14 -/

/-- The loop body returns `none` only through a failed `CHECK_LE`: an unlabeled in-range
non-slur piece whose tracked previous x (of its `ref1`, or of its `(ref2, line)`) is positive
and greater than the x of the piece. -/
theorem visitPiece_none (c : OcrConsts) (dy miny maxy : ℚ) (xref1 : XRef1) (xref2 : XRef2)
    (p : Piece) (h : visitPiece c dy miny maxy xref1 xref2 p = none) :
    (0 < xref1 p.ref1 ∧ p.x < xref1 p.ref1) ∨
      (0 < xref2 (p.ref2, p.line) ∧ p.x < xref2 (p.ref2, p.line)) := by
  by_contra hcon
  rw [not_or, not_and, not_and, not_lt, not_lt] at hcon
  obtain ⟨v, hv, _⟩ : ∃ v, visitPiece c dy miny maxy xref1 xref2 p = some v ∧ True := by
    unfold visitPiece
    split_ifs
    · exact ⟨_, rfl, trivial⟩
    · exact ⟨_, rfl, trivial⟩
    · exact ⟨_, rfl, trivial⟩
    · exact ⟨_, rfl, trivial⟩
    · obtain ⟨p1, e, m1, hb1, hc1, _⟩ := ref1Block_some c dy p xref1 hcon.1
      have hf := clearError_fields hc1
      obtain ⟨p2, m2, hb2, _, _⟩ := ref2Block_some dy p1 xref2 (by
        rw [hf.1, hf.2.2.2.2.1, hf.2.2.1]; exact hcon.2)
      rw [hb1]
      simp only [hb2]
      exact ⟨_, rfl, trivial⟩
  rw [hv] at h
  cases h

/-- C14: for every layout, `SortLayout` runs through without a failed `CHECK_LE(x, piece.x())`:
the sort-and-validate pass of every staff returns, also on the iterations that follow the
erase of a duplicate, and so does `SortLayout` as a whole. -/
theorem C14_check_le_never_trips (c : OcrConsts) (layout : Layout) :
    (∀ staff : Staff, (sortStaff c staff).isSome = true) ∧
      (SortLayout c layout).isSome = true := by
  constructor
  · intro staff
    obtain ⟨out, ho, _⟩ := sortStaff_some c staff
    rw [ho]
    rfl
  · obtain ⟨out, ho, _⟩ := sortStaves_some c (stdSort staffLess layout.staff)
    simp [SortLayout, ho]

/-! ## What the loop body can do to a piece -/

theorem mapSet_cases {κ : Type} [DecidableEq κ] (m : κ → ℚ) (k0 : κ) (v : ℚ) (k : κ) :
    mapSet m k0 v k = m k ∨ (k = k0 ∧ mapSet m k0 v k = v) := by
  unfold mapSet
  split_ifs with h
  · exact Or.inr ⟨h, rfl⟩
  · exact Or.inl rfl

theorem ref1Block_inv (c : OcrConsts) (dy : ℚ) (p p1 : Piece) (xref1 m : XRef1) (e : Bool)
    (h : ref1Block c dy p xref1 = some (p1, e, m)) :
    clearError p1 = clearError p ∧
      (∀ k, m k = xref1 k ∨ (k = p.ref1 ∧ m k = p.x)) ∧
      (e = true → p.ref1 ≠ 0 ∧ MaybeDuplicate c p = true ∧ 0 < xref1 p.ref1 ∧
        xref1 p.ref1 ≤ p.x ∧ p.x - xref1 p.ref1 < 0.1 * dy) ∧
      (e = false → p1.piece_error = p.piece_error ∨ p1.piece_error = "x distance too low") := by
  unfold ref1Block at h
  dsimp only at h
  by_cases h0 : p.ref1 ≠ 0
  · rw [if_pos h0] at h
    by_cases hx : xref1 p.ref1 > 0
    · rw [if_pos hx] at h
      by_cases hc : ¬ (xref1 p.ref1 ≤ p.x)
      · rw [if_pos hc] at h; cases h
      · rw [if_neg hc] at h
        by_cases hd : MaybeDuplicate c p = true ∧ p.x - xref1 p.ref1 < 0.1 * dy
        · rw [if_pos hd] at h
          simp only [Option.some.injEq, Prod.mk.injEq] at h
          obtain ⟨rfl, rfl, rfl⟩ := h
          exact ⟨rfl, mapSet_cases _ _ _, fun _ => ⟨h0, hd.1, hx, not_not.mp hc, hd.2⟩,
            fun hf => Bool.noConfusion hf⟩
        · rw [if_neg hd] at h
          by_cases hs : p.x - xref1 p.ref1 < 0.9 * dy
          · rw [if_pos hs] at h
            simp only [Option.some.injEq, Prod.mk.injEq] at h
            obtain ⟨rfl, rfl, rfl⟩ := h
            exact ⟨rfl, mapSet_cases _ _ _, fun hf => Bool.noConfusion hf, fun _ => Or.inr rfl⟩
          · rw [if_neg hs] at h
            simp only [Option.some.injEq, Prod.mk.injEq] at h
            obtain ⟨rfl, rfl, rfl⟩ := h
            exact ⟨rfl, mapSet_cases _ _ _, fun hf => Bool.noConfusion hf, fun _ => Or.inl rfl⟩
    · rw [if_neg hx] at h
      simp only [Option.some.injEq, Prod.mk.injEq] at h
      obtain ⟨rfl, rfl, rfl⟩ := h
      exact ⟨rfl, mapSet_cases _ _ _, fun hf => Bool.noConfusion hf, fun _ => Or.inl rfl⟩
  · rw [if_neg h0] at h
    simp only [Option.some.injEq, Prod.mk.injEq] at h
    obtain ⟨rfl, rfl, rfl⟩ := h
    exact ⟨rfl, fun _ => Or.inl rfl, fun hf => Bool.noConfusion hf, fun _ => Or.inl rfl⟩

theorem ref2Block_inv (dy : ℚ) (p p2 : Piece) (xref2 m : XRef2)
    (h : ref2Block dy p xref2 = some (p2, m)) :
    clearError p2 = clearError p ∧
      (∀ k, m k = xref2 k ∨ (k = (p.ref2, p.line) ∧ m k = p.x)) ∧
      (p2.piece_error = p.piece_error ∨ p2.piece_error = "x distance too low") := by
  unfold ref2Block at h
  dsimp only at h
  by_cases h0 : p.ref2 ≠ 0
  · rw [if_pos h0] at h
    by_cases hx : xref2 (p.ref2, p.line) > 0
    · rw [if_pos hx] at h
      by_cases hc : ¬ (xref2 (p.ref2, p.line) ≤ p.x)
      · rw [if_pos hc] at h; cases h
      · rw [if_neg hc] at h
        by_cases hs : p.x - xref2 (p.ref2, p.line) < 0.9 * dy
        · rw [if_pos hs] at h
          simp only [Option.some.injEq, Prod.mk.injEq] at h
          obtain ⟨rfl, rfl⟩ := h
          exact ⟨rfl, mapSet_cases _ _ _, Or.inr rfl⟩
        · rw [if_neg hs] at h
          simp only [Option.some.injEq, Prod.mk.injEq] at h
          obtain ⟨rfl, rfl⟩ := h
          exact ⟨rfl, mapSet_cases _ _ _, Or.inl rfl⟩
    · rw [if_neg hx] at h
      simp only [Option.some.injEq, Prod.mk.injEq] at h
      obtain ⟨rfl, rfl⟩ := h
      exact ⟨rfl, mapSet_cases _ _ _, Or.inl rfl⟩
  · rw [if_neg h0] at h
    simp only [Option.some.injEq, Prod.mk.injEq] at h
    obtain ⟨rfl, rfl⟩ := h
    exact ⟨rfl, fun _ => Or.inl rfl, Or.inl rfl⟩

/-- Everything the loop body can do to a piece, read off a returned `Visit`. -/
theorem visitPiece_inv (c : OcrConsts) (dy miny maxy : ℚ) (xref1 : XRef1) (xref2 : XRef2)
    (p : Piece) (v : Visit) (h : visitPiece c dy miny maxy xref1 xref2 p = some v) :
    clearError v.piece = clearError p ∧
      (∀ k, v.xref1 k = xref1 k ∨ (k = p.ref1 ∧ v.xref1 k = p.x)) ∧
      (∀ k, v.xref2 k = xref2 k ∨ (k = (p.ref2, p.line) ∧ v.xref2 k = p.x)) ∧
      (v.erased = true → Unlabeled p ∧ p.ref1 ≠ 0 ∧ MaybeDuplicate c p = true ∧
        0 < xref1 p.ref1 ∧ xref1 p.ref1 ≤ p.x ∧ p.x - xref1 p.ref1 < 0.1 * dy) ∧
      (v.erased = false → Unlabeled p →
        (¬ LineInRange c p → v.piece.piece_error = "Line outside range") ∧
        (LineInRange c p →
          (v.piece.piece_error = "y out of range" ↔ (p.y < miny ∨ p.y > maxy)))) := by
  unfold visitPiece at h
  by_cases hlab : p.name ≠ "" ∨ p.piece_error ≠ ""
  · rw [if_pos hlab] at h
    simp only [Option.some.injEq] at h
    subst h
    refine ⟨rfl, fun _ => Or.inl rfl, fun _ => Or.inl rfl, fun hf => Bool.noConfusion hf, ?_⟩
    intro _ hu
    rcases hlab with hl | hl
    · exact absurd hu.1 hl
    · exact absurd hu.2 hl
  · rw [if_neg hlab] at h
    have hu : Unlabeled p := by
      rw [not_or, not_not, not_not] at hlab
      exact hlab
    by_cases hline : p.line < c.MinLine ∨ p.line > c.MaxLine
    · rw [if_pos hline] at h
      simp only [Option.some.injEq] at h
      subst h
      refine ⟨rfl, fun _ => Or.inl rfl, fun _ => Or.inl rfl, fun hf => Bool.noConfusion hf, ?_⟩
      intro _ _
      refine ⟨fun _ => rfl, fun hin => ?_⟩
      exfalso
      rcases hline with hl | hl
      · exact absurd hin.1 (not_le.mpr hl)
      · exact absurd hin.2 (not_le.mpr hl)
    · rw [if_neg hline] at h
      have hin : LineInRange c p := by
        rw [not_or, not_lt, not_lt] at hline
        exact hline
      by_cases hy : p.y < miny ∨ p.y > maxy
      · rw [if_pos hy] at h
        simp only [Option.some.injEq] at h
        subst h
        refine ⟨rfl, fun _ => Or.inl rfl, fun _ => Or.inl rfl, fun hf => Bool.noConfusion hf, ?_⟩
        intro _ _
        exact ⟨fun hn => absurd hin hn, fun _ => ⟨fun _ => hy, fun _ => rfl⟩⟩
      · rw [if_neg hy] at h
        by_cases hs : IsSlur c p = true
        · rw [if_pos hs] at h
          simp only [Option.some.injEq] at h
          subst h
          refine ⟨rfl, fun _ => Or.inl rfl, fun _ => Or.inl rfl, fun hf => Bool.noConfusion hf, ?_⟩
          intro _ _
          refine ⟨fun hn => absurd hin hn, fun _ => ⟨fun he => ?_, fun hy2 => absurd hy2 hy⟩⟩
          rw [hu.2] at he
          exact absurd he (by decide)
        · rw [if_neg hs] at h
          cases hb1 : ref1Block c dy p xref1 with
          | none => rw [hb1] at h; cases h
          | some r1 =>
            obtain ⟨p1, e, m1⟩ := r1
            rw [hb1] at h
            dsimp only at h
            cases hb2 : ref2Block dy p1 xref2 with
            | none => rw [hb2] at h; cases h
            | some r2 =>
              obtain ⟨p2, m2⟩ := r2
              rw [hb2] at h
              simp only [Option.some.injEq] at h
              subst h
              obtain ⟨hc1, hm1, he1, hk1⟩ := ref1Block_inv c dy p p1 xref1 m1 e hb1
              obtain ⟨hc2, hm2, hk2⟩ := ref2Block_inv dy p1 p2 xref2 m2 hb2
              have hf := clearError_fields hc1
              refine ⟨hc2.trans hc1, hm1, ?_, ?_, ?_⟩
              · intro k
                rw [← hf.1, ← hf.2.2.2.2.1, ← hf.2.2.1]
                exact hm2 k
              · intro he
                exact ⟨hu, he1 he⟩
              · intro he _
                refine ⟨fun hn => absurd hin hn,
                  fun _ => ⟨fun hbad => ?_, fun hy2 => absurd hy2 hy⟩⟩
                exfalso
                dsimp only at he hbad
                rcases hk2 with h2 | h2
                · rcases hk1 he with h1 | h1
                  · rw [h2, h1, hu.2] at hbad
                    exact absurd hbad (by decide)
                  · rw [h2, h1] at hbad
                    exact absurd hbad (by decide)
                · rw [h2] at hbad
                  exact absurd hbad (by decide)

/-! ## Claim C15 -/

theorem trackedFrom_cons {m : XRef1} {earlier : List Piece} (p : Piece)
    (h : TrackedFrom m earlier) : TrackedFrom m (p :: earlier) := by
  intro k hk
  obtain ⟨e, he, h1, h2⟩ := h k hk
  exact ⟨e, List.mem_cons_of_mem _ he, h1, h2⟩

theorem trackedFrom_step {m m1 : XRef1} {earlier : List Piece} (p : Piece)
    (h : TrackedFrom m earlier) (hm : ∀ k, m1 k = m k ∨ (k = p.ref1 ∧ m1 k = p.x)) :
    TrackedFrom m1 (p :: earlier) := by
  intro k hk
  rcases hm k with e | ⟨e1, e2⟩
  · rw [e] at hk ⊢
    exact trackedFrom_cons p h k hk
  · exact ⟨p, List.mem_cons_self _ _, e1.symm, e2.symm⟩

theorem markLoop_drops (c : OcrConsts) (dy miny maxy : ℚ) (ps : List Piece) :
    ∀ (skip : Bool) (xref1 : XRef1) (xref2 : XRef2) (earlier out : List Piece),
      markLoop c dy miny maxy skip xref1 xref2 ps = some out → TrackedFrom xref1 earlier →
      OnlyDuplicatesDropped c dy earlier ps out := by
  induction ps with
  | nil =>
    intro skip xref1 xref2 earlier out h _
    have : out = [] := by
      cases skip <;> simp [markLoop] at h <;> exact h
    subst this
    exact OnlyDuplicatesDropped.done earlier
  | cons p rest ih =>
    intro skip xref1 xref2 earlier out h ht
    cases skip with
    | true =>
      simp only [markLoop, Option.map_eq_some'] at h
      obtain ⟨o, ho, rfl⟩ := h
      exact OnlyDuplicatesDropped.keep earlier p p rest o rfl
        (ih false xref1 xref2 (p :: earlier) o ho (trackedFrom_cons p ht))
    | false =>
      simp only [markLoop] at h
      cases hv : visitPiece c dy miny maxy xref1 xref2 p with
      | none => rw [hv] at h; cases h
      | some v =>
        rw [hv] at h
        dsimp only at h
        obtain ⟨hc, hm1, _, he, _⟩ := visitPiece_inv c dy miny maxy xref1 xref2 p v hv
        have ht1 := trackedFrom_step p ht hm1
        by_cases her : v.erased = true
        · rw [if_pos her] at h
          obtain ⟨hu, hnz, hdup, hpos, hle, hlt⟩ := he her
          obtain ⟨e, hmem, he1, he2⟩ := ht p.ref1 hpos
          refine OnlyDuplicatesDropped.drop earlier p rest out
            ⟨hu, hnz, hdup, e, hmem, he1, ?_, ?_, ?_⟩
            (ih true v.xref1 v.xref2 (p :: earlier) out h ht1)
          · rw [he2]; exact hpos
          · rw [he2]; exact hle
          · rw [he2]; exact hlt
        · rw [if_neg her] at h
          simp only [Option.map_eq_some'] at h
          obtain ⟨o, ho, rfl⟩ := h
          exact OnlyDuplicatesDropped.keep earlier p v.piece rest o hc
            (ih false v.xref1 v.xref2 (p :: earlier) o ho ht1)

theorem drops_sublist {c : OcrConsts} {dy : ℚ} {earlier ps out : List Piece}
    (h : OnlyDuplicatesDropped c dy earlier ps out) :
    (out.map clearError).Sublist (ps.map clearError) := by
  induction h with
  | done => simp
  | keep earlier p q ps out hq _ ih =>
    simp only [List.map_cons, hq]
    exact ih.cons₂ _
  | drop earlier p ps out _ _ ih =>
    simp only [List.map_cons]
    exact ih.cons _

theorem drops_keep_ref1_zero {c : OcrConsts} {dy : ℚ} {earlier ps out : List Piece}
    (h : OnlyDuplicatesDropped c dy earlier ps out) :
    (out.filter (fun p => decide (p.ref1 = 0))).map clearError =
      (ps.filter (fun p => decide (p.ref1 = 0))).map clearError := by
  induction h with
  | done => rfl
  | keep earlier p q ps out hq _ ih =>
    have hr : q.ref1 = p.ref1 := (clearError_fields hq).2.2.2.1
    by_cases h0 : p.ref1 = 0
    · simp [List.filter_cons, hr, h0, hq, ih]
    · simp [List.filter_cons, hr, h0, ih]
  | drop earlier p ps out hd _ ih =>
    simp [List.filter_cons, hd.2.1, ih]

theorem markUnsupported_eq (c : OcrConsts) (staff : Staff) :
    MarkUnsupported c staff =
      (markLoop c staff.dy (minY c staff) (maxY c staff) false (fun _ => 0) (fun _ => 0)
        staff.piece).map (fun out => { staff with piece := out }) :=
  rfl

theorem markUnsupported_loop {c : OcrConsts} {staff out : Staff}
    (h : MarkUnsupported c staff = some out) :
    markLoop c staff.dy (minY c staff) (maxY c staff) false (fun _ => 0) (fun _ => 0)
      staff.piece = some out.piece := by
  rw [markUnsupported_eq, Option.map_eq_some'] at h
  obtain ⟨o, ho, rfl⟩ := h
  exact ho

/-- C15: when `MarkUnsupported` returns, the piece sequence it leaves is, with `piece_error`
ignored, a sublist of the sequence it was given; every piece that is missing is a true
duplicate (unlabeled, a non-zero `ref1` for which `MaybeDuplicate` holds, and an x less than
`0.1 * dy` after the positive x of an earlier piece of the same `ref1`); in particular the
pieces with `ref1 = 0` are all still there. -/
theorem C15_only_true_duplicates_removed (c : OcrConsts) (staff out : Staff)
    (h : MarkUnsupported c staff = some out) :
    (out.piece.map clearError).Sublist (staff.piece.map clearError) ∧
      OnlyDuplicatesDropped c staff.dy [] staff.piece out.piece ∧
      (out.piece.filter (fun p => decide (p.ref1 = 0))).map clearError =
        (staff.piece.filter (fun p => decide (p.ref1 = 0))).map clearError := by
  have hd := markLoop_drops c staff.dy (minY c staff) (maxY c staff) staff.piece false
    (fun _ => 0) (fun _ => 0) [] out.piece (markUnsupported_loop h)
    (fun k hk => absurd hk (lt_irrefl _))
  exact ⟨drops_sublist hd, hd, drops_keep_ref1_zero hd⟩

theorem sample_duplicate_marked :
    MarkUnsupported sampleConsts (sampleStaff [samplePiece 1 0 5, samplePiece (1 + 0.05) 0 5]) =
      some (sampleStaff [samplePiece 1 0 5]) := by
  norm_num [MarkUnsupported, markLoop, visitPiece, ref1Block, ref2Block, sampleStaff,
    samplePiece, minY, maxY, sampleConsts, IsSlur, MaybeDuplicate, mapSet]

/-- Witness of C15: the sample staff with pieces of category 5 at x = 1 and x = 1.05, of which
the second is removed. -/
theorem C15_witness :
    ((sampleStaff [samplePiece 1 0 5]).piece.map clearError).Sublist
        ((sampleStaff [samplePiece 1 0 5, samplePiece (1 + 0.05) 0 5]).piece.map clearError) ∧
      OnlyDuplicatesDropped sampleConsts
        (sampleStaff [samplePiece 1 0 5, samplePiece (1 + 0.05) 0 5]).dy []
        (sampleStaff [samplePiece 1 0 5, samplePiece (1 + 0.05) 0 5]).piece
        (sampleStaff [samplePiece 1 0 5]).piece ∧
      ((sampleStaff [samplePiece 1 0 5]).piece.filter (fun p => decide (p.ref1 = 0))).map
          clearError =
        ((sampleStaff [samplePiece 1 0 5, samplePiece (1 + 0.05) 0 5]).piece.filter
          (fun p => decide (p.ref1 = 0))).map clearError :=
  C15_only_true_duplicates_removed sampleConsts _ _ sample_duplicate_marked

/-! ## Claim C16 -/

theorem visitPiece_slur (c : OcrConsts) (dy miny maxy : ℚ) (xref1 : XRef1) (xref2 : XRef2)
    (p : Piece) (hs : IsSlur c p = true) (hu : Unlabeled p) (hl : LineInRange c p)
    (hy : miny ≤ p.y ∧ p.y ≤ maxy) :
    visitPiece c dy miny maxy xref1 xref2 p =
      some { piece := p, erased := false, xref1 := xref1, xref2 := xref2 } := by
  unfold visitPiece
  rw [if_neg (by simp [hu.1, hu.2]), if_neg (by
    rw [not_or, not_lt, not_lt]; exact hl), if_neg (by
    rw [not_or, not_lt, not_lt]; exact hy), if_pos hs]

/-- A piece that the loop body always passes on as it is (not erased, not changed, maps
untouched) is still in the sequence when the loop returns. -/
theorem markLoop_inert_mem (c : OcrConsts) (dy miny maxy : ℚ) (p : Piece)
    (hinert : ∀ (xref1 : XRef1) (xref2 : XRef2), visitPiece c dy miny maxy xref1 xref2 p =
      some { piece := p, erased := false, xref1 := xref1, xref2 := xref2 })
    (ps : List Piece) :
    ∀ (skip : Bool) (xref1 : XRef1) (xref2 : XRef2) (out : List Piece),
      markLoop c dy miny maxy skip xref1 xref2 ps = some out → p ∈ ps → p ∈ out := by
  induction ps with
  | nil => intro _ _ _ _ _ hp; cases hp
  | cons a rest ih =>
    intro skip xref1 xref2 out h hp
    cases skip with
    | true =>
      simp only [markLoop, Option.map_eq_some'] at h
      obtain ⟨o, ho, rfl⟩ := h
      rcases List.mem_cons.mp hp with rfl | hp
      · exact List.mem_cons_self _ _
      · exact List.mem_cons_of_mem _ (ih false xref1 xref2 o ho hp)
    | false =>
      simp only [markLoop] at h
      cases hv : visitPiece c dy miny maxy xref1 xref2 a with
      | none => rw [hv] at h; cases h
      | some v =>
        rw [hv] at h
        dsimp only at h
        rcases List.mem_cons.mp hp with rfl | hp
        · rw [hinert xref1 xref2] at hv
          cases hv
          simp only [Bool.false_eq_true, if_false, Option.map_eq_some'] at h
          obtain ⟨o, _, rfl⟩ := h
          exact List.mem_cons_self _ _
        · by_cases he : v.erased = true
          · rw [if_pos he] at h
            exact ih true v.xref1 v.xref2 out h hp
          · rw [if_neg he] at h
            simp only [Option.map_eq_some'] at h
            obtain ⟨o, ho, rfl⟩ := h
            exact List.mem_cons_of_mem _ (ih false v.xref1 v.xref2 o ho hp)

/-- C16: an unlabeled piece of a slur category with in-range line and y is passed on by the
loop as it is, whether the loop examines it or steps over it: it is not removed, its
`piece_error` stays empty, and the loop goes on with the tracked x values it had before the
piece; so the piece is still in the staff when `MarkUnsupported` returns, whatever the other
pieces are. -/
theorem C16_slur_exempt (c : OcrConsts) (staff : Staff) (p : Piece)
    (hs : IsSlur c p = true) (hu : Unlabeled p) (hl : LineInRange c p)
    (hy : YInRange c staff p) :
    (∀ (skip : Bool) (xref1 : XRef1) (xref2 : XRef2) (rest : List Piece),
      markLoop c staff.dy (minY c staff) (maxY c staff) skip xref1 xref2 (p :: rest) =
        (markLoop c staff.dy (minY c staff) (maxY c staff) false xref1 xref2 rest).map
          (fun out => p :: out)) ∧
    (∀ out : Staff, MarkUnsupported c staff = some out → p ∈ staff.piece → p ∈ out.piece) ∧
    p.piece_error = "" := by
  have hv := fun xref1 xref2 =>
    visitPiece_slur c staff.dy (minY c staff) (maxY c staff) xref1 xref2 p hs hu hl hy
  refine ⟨?_, ?_, hu.2⟩
  · intro skip xref1 xref2 rest
    cases skip with
    | true => simp only [markLoop]
    | false => simp only [markLoop, hv xref1 xref2, Bool.false_eq_true, if_false]
  · intro out h hp
    exact markLoop_inert_mem c staff.dy (minY c staff) (maxY c staff) p hv staff.piece false
      (fun _ => 0) (fun _ => 0) out.piece (markUnsupported_loop h) hp

/-- Witness of C16: a slur piece (category 30) at x = 1.02 on the sample staff. -/
theorem C16_witness :
    (∀ (skip : Bool) (xref1 : XRef1) (xref2 : XRef2) (rest : List Piece),
      markLoop sampleConsts (sampleStaff [samplePiece 1.02 0 30]).dy
          (minY sampleConsts (sampleStaff [samplePiece 1.02 0 30]))
          (maxY sampleConsts (sampleStaff [samplePiece 1.02 0 30])) skip xref1 xref2
          (samplePiece 1.02 0 30 :: rest) =
        (markLoop sampleConsts (sampleStaff [samplePiece 1.02 0 30]).dy
          (minY sampleConsts (sampleStaff [samplePiece 1.02 0 30]))
          (maxY sampleConsts (sampleStaff [samplePiece 1.02 0 30])) false xref1 xref2 rest).map
          (fun out => samplePiece 1.02 0 30 :: out)) ∧
    (∀ out : Staff,
      MarkUnsupported sampleConsts (sampleStaff [samplePiece 1.02 0 30]) = some out →
      samplePiece 1.02 0 30 ∈ (sampleStaff [samplePiece 1.02 0 30]).piece →
      samplePiece 1.02 0 30 ∈ out.piece) ∧
    (samplePiece 1.02 0 30).piece_error = "" :=
  C16_slur_exempt sampleConsts (sampleStaff [samplePiece 1.02 0 30]) (samplePiece 1.02 0 30)
    (by decide) ⟨rfl, rfl⟩ (by norm_num [LineInRange, samplePiece, sampleConsts])
    (by norm_num [YInRange, minY, maxY, sampleStaff, samplePiece, sampleConsts])

/-- The slur of the witness between two close pieces of category 5, evaluated: the slur stays
unflagged, the piece at x = 1.05 is still removed as a duplicate of the piece at x = 1. -/
theorem sample_slur_between :
    sortStaff sampleConsts
        (sampleStaff [samplePiece 1 0 5, samplePiece 1.02 0 30, samplePiece (1 + 0.05) 0 5]) =
      some (sampleStaff [samplePiece 1 0 5, samplePiece 1.02 0 30]) := by
  norm_num [sortStaff, MarkUnsupported, markLoop, visitPiece, ref1Block, ref2Block, stdSort,
    sortInsert, pieceLess, tupleLt, SortKey, sampleStaff, samplePiece, minY, maxY,
    sampleConsts, IsSlur, MaybeDuplicate, mapSet]

/-! ## Claim C17 -/

theorem markLoop_length_le (c : OcrConsts) (dy miny maxy : ℚ) (ps : List Piece) :
    ∀ (skip : Bool) (xref1 : XRef1) (xref2 : XRef2) (out : List Piece),
      markLoop c dy miny maxy skip xref1 xref2 ps = some out → out.length ≤ ps.length := by
  induction ps with
  | nil =>
    intro skip xref1 xref2 out h
    have : out = [] := by
      cases skip <;> simp [markLoop] at h <;> exact h
    subst this
    exact le_refl _
  | cons p rest ih =>
    intro skip xref1 xref2 out h
    cases skip with
    | true =>
      simp only [markLoop, Option.map_eq_some'] at h
      obtain ⟨o, ho, rfl⟩ := h
      simpa using ih false xref1 xref2 o ho
    | false =>
      simp only [markLoop] at h
      cases hv : visitPiece c dy miny maxy xref1 xref2 p with
      | none => rw [hv] at h; cases h
      | some v =>
        rw [hv] at h
        dsimp only at h
        by_cases her : v.erased = true
        · rw [if_pos her] at h
          exact le_trans (ih true v.xref1 v.xref2 out h) (by simp)
        · rw [if_neg her] at h
          simp only [Option.map_eq_some'] at h
          obtain ⟨o, ho, rfl⟩ := h
          simpa using ih false v.xref1 v.xref2 o ho

theorem markLoop_no_removal (c : OcrConsts) (dy miny maxy : ℚ) (ps : List Piece) :
    ∀ (xref1 : XRef1) (xref2 : XRef2) (out : List Piece),
      markLoop c dy miny maxy false xref1 xref2 ps = some out → out.length = ps.length →
      List.Forall₂ (RangeOutcome c miny maxy) ps out := by
  induction ps with
  | nil =>
    intro xref1 xref2 out h _
    simp [markLoop] at h
    subst h
    exact List.Forall₂.nil
  | cons p rest ih =>
    intro xref1 xref2 out h hlen
    simp only [markLoop] at h
    cases hv : visitPiece c dy miny maxy xref1 xref2 p with
    | none => rw [hv] at h; cases h
    | some v =>
      rw [hv] at h
      dsimp only at h
      by_cases her : v.erased = true
      · rw [if_pos her] at h
        have := markLoop_length_le c dy miny maxy rest true v.xref1 v.xref2 out h
        rw [hlen] at this
        simp at this
      · rw [if_neg her] at h
        simp only [Option.map_eq_some'] at h
        obtain ⟨o, ho, rfl⟩ := h
        obtain ⟨hc, _, _, _, hr⟩ := visitPiece_inv c dy miny maxy xref1 xref2 p v hv
        have he : v.erased = false := by
          cases hb : v.erased
          · rfl
          · exact absurd hb her
        refine List.Forall₂.cons ⟨hc, fun hu hl => ((hr he hu).2 hl), fun hu hl => (hr he hu).1 hl⟩
          (ih v.xref1 v.xref2 o ho (by simpa using hlen))

/-- C17: when `MarkUnsupported` returns and has removed no piece, every piece that entered
unlabeled with its line in `[MinLine, MaxLine]` ends with `piece_error` "y out of range"
exactly when its y is below `miny` or above `maxy`, and every piece that entered unlabeled
with its line out of range ends with "Line outside range", whatever its y. -/
theorem C17_range_flags (c : OcrConsts) (staff out : Staff)
    (h : MarkUnsupported c staff = some out)
    (hlen : out.piece.length = staff.piece.length) :
    List.Forall₂ (RangeOutcome c (minY c staff) (maxY c staff)) staff.piece out.piece :=
  markLoop_no_removal c staff.dy (minY c staff) (maxY c staff) staff.piece (fun _ => 0)
    (fun _ => 0) out.piece (markUnsupported_loop h) hlen

theorem sample_range_marked :
    MarkUnsupported sampleConsts
        (sampleStaff [samplePiece 1 0 5, { samplePiece 2 0 5 with y := 20 },
          samplePiece 3 17 5]) =
      some (sampleStaff [samplePiece 1 0 5,
        { samplePiece 2 0 5 with y := 20, piece_error := "y out of range" },
        { samplePiece 3 17 5 with piece_error := "Line outside range" }]) := by
  norm_num [MarkUnsupported, markLoop, visitPiece, ref1Block, ref2Block, sampleStaff,
    samplePiece, minY, maxY, sampleConsts, IsSlur, MaybeDuplicate, mapSet]

/-- Witness of C17: the sample staff with an in-range piece, a piece at y = 20 (above
`maxy` = 18) and a piece on line 17 (above `MaxLine` = 16). -/
theorem C17_witness :
    List.Forall₂
      (RangeOutcome sampleConsts
        (minY sampleConsts (sampleStaff [samplePiece 1 0 5, { samplePiece 2 0 5 with y := 20 },
          samplePiece 3 17 5]))
        (maxY sampleConsts (sampleStaff [samplePiece 1 0 5, { samplePiece 2 0 5 with y := 20 },
          samplePiece 3 17 5])))
      (sampleStaff [samplePiece 1 0 5, { samplePiece 2 0 5 with y := 20 },
        samplePiece 3 17 5]).piece
      (sampleStaff [samplePiece 1 0 5,
        { samplePiece 2 0 5 with y := 20, piece_error := "y out of range" },
        { samplePiece 3 17 5 with piece_error := "Line outside range" }]).piece :=
  C17_range_flags sampleConsts _ _ sample_range_marked rfl

/-! ## Claim C19 -/

theorem visitPiece_nonpos (c : OcrConsts) (dy miny maxy : ℚ) (xref1 : XRef1) (xref2 : XRef2)
    (p : Piece) (h1 : ∀ k, xref1 k ≤ 0) (h2 : ∀ k, xref2 k ≤ 0) (hx : p.x ≤ 0) :
    ∃ v, visitPiece c dy miny maxy xref1 xref2 p = some v ∧ v.erased = false ∧
      (∀ k, v.xref1 k ≤ 0) ∧ (∀ k, v.xref2 k ≤ 0) := by
  cases hv : visitPiece c dy miny maxy xref1 xref2 p with
  | none =>
    rcases visitPiece_none c dy miny maxy xref1 xref2 p hv with h | h
    · exact absurd h.1 (not_lt.mpr (h1 _))
    · exact absurd h.1 (not_lt.mpr (h2 _))
  | some v =>
    obtain ⟨_, hm1, hm2, he, _⟩ := visitPiece_inv c dy miny maxy xref1 xref2 p v hv
    refine ⟨v, rfl, ?_, ?_, ?_⟩
    · cases hb : v.erased
      · rfl
      · exact absurd (he hb).2.2.2.1 (not_lt.mpr (h1 _))
    · intro k
      rcases hm1 k with e | ⟨_, e⟩
      · rw [e]; exact h1 k
      · rw [e]; exact hx
    · intro k
      rcases hm2 k with e | ⟨_, e⟩
      · rw [e]; exact h2 k
      · rw [e]; exact hx

/-- While every piece scanned so far has `x <= 0`, no tracked x is positive, so nothing is
erased, and an unlabeled in-range non-slur piece that comes next is kept as it entered. -/
theorem markLoop_after_nonpos (c : OcrConsts) (dy miny maxy : ℚ) (q : Piece)
    (hu : Unlabeled q) (hl : LineInRange c q) (hy : miny ≤ q.y ∧ q.y ≤ maxy)
    (hs : IsSlur c q = false) (ps : List Piece) :
    ∀ (xref1 : XRef1) (xref2 : XRef2) (rest out : List Piece),
      (∀ k, xref1 k ≤ 0) → (∀ k, xref2 k ≤ 0) → (∀ e ∈ ps, e.x ≤ 0) →
      markLoop c dy miny maxy false xref1 xref2 (ps ++ q :: rest) = some out →
      ∃ out1 out2, out = out1 ++ q :: out2 ∧ out1.length = ps.length := by
  induction ps with
  | nil =>
    intro xref1 xref2 rest out h1 h2 _ h
    simp only [List.nil_append, markLoop] at h
    rw [visitPiece_checked c dy miny maxy xref1 xref2 q hu hl hy hs,
      ref1Block_fresh c dy q xref1 (h1 _)] at h
    dsimp only at h
    rw [ref2Block_fresh dy q xref2 (h2 _)] at h
    simp only [Bool.false_eq_true, if_false, Option.map_eq_some'] at h
    obtain ⟨o, _, rfl⟩ := h
    exact ⟨[], o, rfl, rfl⟩
  | cons e ps ih =>
    intro xref1 xref2 rest out h1 h2 hx h
    obtain ⟨v, hv, he, hv1, hv2⟩ :=
      visitPiece_nonpos c dy miny maxy xref1 xref2 e h1 h2 (hx e (List.mem_cons_self _ _))
    simp only [List.cons_append, markLoop, hv, he, Bool.false_eq_true, if_false,
      Option.map_eq_some'] at h
    obtain ⟨o, ho, rfl⟩ := h
    obtain ⟨out1, out2, rfl, hlen⟩ :=
      ih v.xref1 v.xref2 rest o hv1 hv2 (fun a ha => hx a (List.mem_cons_of_mem _ ha)) ho
    exact ⟨v.piece :: out1, out2, rfl, by simp [hlen]⟩

/-- C19 (as the code has it): when the piece `p` has `x <= 0` and the unlabeled in-range
non-slur piece `q` directly follows `p` in the sorted piece sequence of the staff, `q` is
neither removed nor flagged: it comes out as it entered, at the place right after the pieces
that came before it, however small the gap between `p` and `q` is. -/
theorem C19_zero_means_nothing_seen (c : OcrConsts) (staff : Staff)
    (before after : List Piece) (p q : Piece)
    (hsort : stdSort pieceLess staff.piece = before ++ p :: q :: after) (hp : p.x ≤ 0)
    (hu : Unlabeled q) (hl : LineInRange c q) (hy : YInRange c staff q)
    (hs : IsSlur c q = false) :
    ∃ out1 out2, sortStaff c staff = some { staff with piece := out1 ++ q :: out2 } ∧
      out1.length = before.length + 1 := by
  obtain ⟨out, ho, _⟩ := sortStaff_some c staff
  have hsorted := stdSort_pieces_sorted staff.piece
  rw [hsort] at hsorted
  have hx : ∀ e ∈ before ++ [p], e.x ≤ 0 := by
    intro e he
    rcases List.mem_append.mp he with hb | hb
    · have := (List.pairwise_append.mp hsorted).2.2 e hb p (List.mem_cons_self _ _)
      exact le_trans (lexKey_le_x this) hp
    · rw [List.mem_singleton] at hb
      rw [hb]; exact hp
  have hm := ho
  rw [sortStaff_eq, hsort, Option.map_eq_some'] at hm
  obtain ⟨o, hm, he⟩ := hm
  have e : o = out := congrArg Staff.piece he
  subst e
  have hm2 : markLoop c staff.dy (minY c staff) (maxY c staff) false (fun _ => 0) (fun _ => 0)
      ((before ++ [p]) ++ q :: after) = some o := by
    rw [List.append_assoc]; exact hm
  obtain ⟨out1, out2, rfl, hlen⟩ := markLoop_after_nonpos c staff.dy (minY c staff)
    (maxY c staff) q hu hl hy hs (before ++ [p]) (fun _ => 0) (fun _ => 0) after _
    (fun _ => le_refl _) (fun _ => le_refl _) hx hm2
  exact ⟨out1, out2, ho, by simpa using hlen⟩

/-- Witness of C19: pieces of the duplicate-prone category 5 at x = 0 and x = 0.01. -/
theorem C19_witness :
    ∃ out1 out2,
      sortStaff sampleConsts (sampleStaff [samplePiece 0 0 5, samplePiece 0.01 0 5]) =
        some { sampleStaff [samplePiece 0 0 5, samplePiece 0.01 0 5] with
               piece := out1 ++ samplePiece 0.01 0 5 :: out2 } ∧
      out1.length = ([] : List Piece).length + 1 :=
  C19_zero_means_nothing_seen sampleConsts
    (sampleStaff [samplePiece 0 0 5, samplePiece 0.01 0 5]) [] [] (samplePiece 0 0 5)
    (samplePiece 0.01 0 5)
    (by norm_num [stdSort, sortInsert, pieceLess, tupleLt, SortKey, sampleStaff, samplePiece])
    (by norm_num [samplePiece]) ⟨rfl, rfl⟩
    (by norm_num [LineInRange, samplePiece, sampleConsts])
    (by norm_num [YInRange, minY, maxY, sampleStaff, samplePiece, sampleConsts])
    (by decide)

/-- Counterexample to C19 as stated: the sample staff holds unlabeled in-range pieces of
category 5 at x = 0, x = 1 and x = 1.05, all on line 0 with `ref2 = 0`. The first of the pieces
at x = 0 and x = 1.05 has `x <= 0`, and the second one is removed (as a duplicate of the piece
at x = 1 in between). -/
theorem C19_counterexample :
    (samplePiece 0 0 5).x ≤ 0 ∧ (samplePiece 0 0 5).ref1 = (samplePiece (1 + 0.05) 0 5).ref1 ∧
      sortStaff sampleConsts
          (sampleStaff [samplePiece 0 0 5, samplePiece 1 0 5, samplePiece (1 + 0.05) 0 5]) =
        some (sampleStaff [samplePiece 0 0 5, samplePiece 1 0 5]) ∧
      samplePiece (1 + 0.05) 0 5 ∉ (sampleStaff [samplePiece 0 0 5, samplePiece 1 0 5]).piece := by
  refine ⟨by norm_num [samplePiece], rfl, ?_, ?_⟩
  · norm_num [sortStaff, MarkUnsupported, markLoop, visitPiece, ref1Block, ref2Block, stdSort,
      sortInsert, pieceLess, tupleLt, SortKey, sampleStaff, samplePiece, minY, maxY,
      sampleConsts, IsSlur, MaybeDuplicate, mapSet]
  · norm_num [sampleStaff, samplePiece]

/-! ## Claim C18 -/

/-- C18 at a failing input: a layout with the sample staff holding pieces of category 5 at
x = 1 and x = 1.05 and an unlabeled piece at x = 2 on line 17, above `MaxLine` = 16. The first
pass erases the duplicate at 1.05 and steps over the piece at x = 2, which stays unflagged; the
second pass examines that piece and flags it "Line outside range". The two passes give
different layouts. -/
theorem C18_second_pass_differs :
    SortLayout sampleConsts
        { staff := [sampleStaff [samplePiece 1 0 5, samplePiece (1 + 0.05) 0 5,
          samplePiece 2 17 40]] } =
      some { staff := [sampleStaff [samplePiece 1 0 5, samplePiece 2 17 40]] } ∧
    SortLayout sampleConsts { staff := [sampleStaff [samplePiece 1 0 5, samplePiece 2 17 40]] } =
      some { staff := [sampleStaff [samplePiece 1 0 5,
        { samplePiece 2 17 40 with piece_error := "Line outside range" }]] } ∧
    ({ staff := [sampleStaff [samplePiece 1 0 5, samplePiece 2 17 40]] } : Layout) ≠
      { staff := [sampleStaff [samplePiece 1 0 5,
        { samplePiece 2 17 40 with piece_error := "Line outside range" }]] } := by
  refine ⟨?_, ?_, ?_⟩
  · norm_num [SortLayout, sortStaves, sortStaff, MarkUnsupported, markLoop, visitPiece,
      ref1Block, ref2Block, stdSort, sortInsert, pieceLess, tupleLt, SortKey, sampleStaff,
      samplePiece, minY, maxY, sampleConsts, IsSlur, MaybeDuplicate, mapSet]
  · norm_num [SortLayout, sortStaves, sortStaff, MarkUnsupported, markLoop, visitPiece,
      ref1Block, ref2Block, stdSort, sortInsert, pieceLess, tupleLt, SortKey, sampleStaff,
      samplePiece, minY, maxY, sampleConsts, IsSlur, MaybeDuplicate, mapSet]
  · simp [sampleStaff, samplePiece]

/-! ## Applying a fragment twice -/

/-- What a returning call of `updateStaff` has done: either it took the record for an empty
one and initialised it, or it checked `y` and the line count and widened the extents. -/
theorem updateStaff_inv (sl : StaffLines) (st st1 : Staff) (h : updateStaff sl st = some st1) :
    sl.Checked ∧
      ((st.x1 = 0 ∧
          st1 = { st with x0 := sl.leftExtent, x1 := sl.rightExtent, y := sl.topLineY,
                          nlines := (sl.lines.length : Int),
                          dy := if sl.lines.length = 1 then st.dy else sl.lineGap }) ∨
        (st.x1 ≠ 0 ∧ st.y = sl.topLineY ∧ (sl.lines.length : Int) = st.nlines ∧
          st1 = { st with x0 := min st.x0 sl.leftExtent, x1 := max st.x1 sl.rightExtent })) := by
  unfold updateStaff at h
  cases hl : sl.lines with
  | nil => rw [hl] at h; cases h
  | cons line0 more =>
    have h0 : sl.line0 = line0 := by simp [StaffLines.line0, hl]
    rw [hl] at h
    dsimp only at h
    by_cases ha : line0.y1 ≠ line0.y2
    · rw [if_pos ha] at h; cases h
    · rw [if_neg ha] at h
      have hchk : sl.Checked := ⟨by rw [hl]; simp, by rw [h0]; exact not_not.mp ha⟩
      refine ⟨hchk, ?_⟩
      simp only [StaffLines.topLineY, StaffLines.leftExtent, StaffLines.rightExtent, h0]
      by_cases hx : st.x1 = 0
      · rw [if_pos hx] at h
        left
        by_cases hb : ¬ (line0.x1 + sl.pagePos.1 ≤ line0.x2 + sl.pagePos.1)
        · rw [if_pos hb] at h; cases h
        · rw [if_neg hb] at h
          cases more with
          | nil =>
            simp only [Option.some.injEq] at h
            subst h
            exact ⟨hx, by simp⟩
          | cons line1 more2 =>
            simp only at h
            split_ifs at h
            simp only [Option.some.injEq] at h
            subst h
            exact ⟨hx, by simp [StaffLines.lineGap, hl]⟩
      · rw [if_neg hx] at h
        right
        by_cases hc : st.y ≠ line0.y1 + sl.pagePos.2
        · rw [if_pos hc] at h; cases h
        · rw [if_neg hc] at h
          by_cases hd : ((line0 :: more).length : Int) ≠ st.nlines
          · rw [if_pos hd] at h; cases h
          · rw [if_neg hd] at h
            simp only [Option.some.injEq] at h
            subst h
            exact ⟨hx, not_not.mp hc, not_not.mp hd, by rw [xmin_eq_min, xmax_eq_max]⟩

theorem max_ne_zero_of_ne_zero {a b : ℚ} (ha : a ≠ 0) (hb : b ≠ 0) : max a b ≠ 0 := by
  rcases max_choice a b with h | h <;> rw [h] <;> assumption

/-- Applying the same fragment a second time changes nothing, provided its right page extent
is not `0`. -/
theorem updateStaff_twice (sl : StaffLines) (st st1 : Staff) (h : updateStaff sl st = some st1)
    (hr : sl.rightExtent ≠ 0) : updateStaff sl st1 = some st1 := by
  obtain ⟨hc, hcase | hcase⟩ := updateStaff_inv sl st st1 h
  · obtain ⟨_, rfl⟩ := hcase
    rw [updateStaff_widen sl _ hc hr rfl rfl]
    simp
  · obtain ⟨hx, hy, hn, rfl⟩ := hcase
    rw [updateStaff_widen sl
      { st with x0 := min st.x0 sl.leftExtent, x1 := max st.x1 sl.rightExtent } hc
      (max_ne_zero_of_ne_zero hx hr) hy hn]
    simp [min_assoc, max_assoc]

/-- A fragment that a record has absorbed (applying it changes nothing) is still absorbed after
another fragment has been applied to the record. -/
theorem updateStaff_absorbed (sd se : StaffLines) (st st1 : Staff)
    (hd : updateStaff sd st = some st) (hrd : sd.rightExtent ≠ 0)
    (he : updateStaff se st = some st1) (hre : se.rightExtent ≠ 0) :
    updateStaff sd st1 = some st1 := by
  obtain ⟨hcd, hcase | hcase⟩ := updateStaff_inv sd st st hd
  · obtain ⟨hx, hst⟩ := hcase
    have := congrArg Staff.x1 hst
    dsimp only at this
    rw [hx] at this
    exact absurd this.symm hrd
  · obtain ⟨hx, hy, hn, hst⟩ := hcase
    have h0 : st.x0 = min st.x0 sd.leftExtent := congrArg Staff.x0 hst
    have h1 : st.x1 = max st.x1 sd.rightExtent := congrArg Staff.x1 hst
    obtain ⟨_, hcase2 | hcase2⟩ := updateStaff_inv se st st1 he
    · exact absurd hcase2.1 hx
    · obtain ⟨_, _, _, rfl⟩ := hcase2
      rw [updateStaff_widen sd
        { st with x0 := min st.x0 se.leftExtent, x1 := max st.x1 se.rightExtent } hcd
        (max_ne_zero_of_ne_zero hx hre) hy hn]
      have e0 : min (min st.x0 se.leftExtent) sd.leftExtent = min st.x0 se.leftExtent := by
        rw [min_right_comm, ← h0]
      have e1 : max (max st.x1 se.rightExtent) sd.rightExtent = max st.x1 se.rightExtent := by
        rw [max_assoc, max_comm se.rightExtent, ← max_assoc, ← h1]
      simp only [e0, e1]

theorem updateEntry_twice (sl : StaffLines) (ss : Nat) (hr : sl.rightExtent ≠ 0)
    (table : StaffTable) :
    ∀ out, updateEntry sl ss table = some out → updateEntry sl ss out = some out := by
  induction table with
  | nil =>
    intro out h
    simp only [updateEntry, Option.map_eq_some'] at h
    obtain ⟨s, hs, rfl⟩ := h
    simp [updateEntry, updateStaff_twice sl Staff.empty s hs hr]
  | cons head rest ih =>
    obtain ⟨k, ms⟩ := head
    intro out h
    simp only [updateEntry] at h
    by_cases hk : k = ss
    · rw [if_pos hk] at h
      simp only [Option.map_eq_some'] at h
      obtain ⟨s, hs, rfl⟩ := h
      simp [updateEntry, hk, updateStaff_twice sl ms s hs hr]
    · rw [if_neg hk] at h
      simp only [Option.map_eq_some'] at h
      obtain ⟨o, ho, rfl⟩ := h
      simp [updateEntry, hk, ih o ho]

theorem updateEntry_absorbed (sd se : StaffLines) (sd_ss se_ss : Nat)
    (hrd : sd.rightExtent ≠ 0) (hre : se.rightExtent ≠ 0) (table : StaffTable) :
    ∀ out, updateEntry sd sd_ss table = some table → updateEntry se se_ss table = some out →
      updateEntry sd sd_ss out = some out := by
  induction table with
  | nil =>
    intro out hd _
    simp only [updateEntry, Option.map_eq_some'] at hd
    obtain ⟨s, _, hs⟩ := hd
    cases hs
  | cons head rest ih =>
    obtain ⟨k, ms⟩ := head
    intro out hd he
    simp only [updateEntry] at hd he
    by_cases hkd : k = sd_ss
    · rw [if_pos hkd] at hd
      simp only [Option.map_eq_some', List.cons.injEq, Prod.mk.injEq, true_and,
        and_true] at hd
      obtain ⟨s, hs, rfl⟩ := hd
      by_cases hke : k = se_ss
      · rw [if_pos hke] at he
        simp only [Option.map_eq_some'] at he
        obtain ⟨s1, hs1, rfl⟩ := he
        simp [updateEntry, hkd, updateStaff_absorbed sd se s s1 hs hrd hs1 hre]
      · rw [if_neg hke] at he
        simp only [Option.map_eq_some'] at he
        obtain ⟨o, _, rfl⟩ := he
        simp [updateEntry, hkd, hs]
    · rw [if_neg hkd] at hd
      simp only [Option.map_eq_some', List.cons.injEq, true_and] at hd
      obtain ⟨o, ho, rfl⟩ := hd
      by_cases hke : k = se_ss
      · rw [if_pos hke] at he
        simp only [Option.map_eq_some'] at he
        obtain ⟨s1, _, rfl⟩ := he
        simp [updateEntry, hkd, ho]
      · rw [if_neg hke] at he
        simp only [Option.map_eq_some'] at he
        obtain ⟨o1, ho1, rfl⟩ := he
        simp [updateEntry, hkd, ih o1 ho ho1]

/-- What `accumulateStep` does, by the kind of element. -/
theorem accumulateStep_cases (table : StaffTable) (e : Element) :
    accumulateStep table e = some table ∧ (e.visible = false ∨ e.stafflines = none) ∨
      (e.visible = true ∧ ∃ sl, e.stafflines = some sl ∧
        ((FindSysStaff e = none ∧ accumulateStep table e = none) ∨
          ∃ ss, FindSysStaff e = some ss ∧ accumulateStep table e = updateEntry sl ss table)) := by
  unfold accumulateStep
  by_cases hv : e.visible = false
  · left
    rw [if_pos hv]
    exact ⟨rfl, Or.inl hv⟩
  · rw [if_neg hv]
    have hv1 : e.visible = true := by
      cases hb : e.visible
      · exact absurd hb hv
      · rfl
    cases hsl : e.stafflines with
    | none => left; exact ⟨rfl, Or.inr rfl⟩
    | some sl =>
      right
      refine ⟨hv1, sl, rfl, ?_⟩
      cases hf : FindSysStaff e with
      | none => left; exact ⟨rfl, rfl⟩
      | some ss => right; exact ⟨ss, rfl, rfl⟩

theorem accumulateStep_twice (table out : StaffTable) (e : Element)
    (hr : RightExtentNonzero e) (h : accumulateStep table e = some out) :
    accumulateStep out e = some out := by
  rcases accumulateStep_cases table e with ⟨h1, hk⟩ | ⟨hv, sl, hsl, hf | ⟨ss, hf, hu⟩⟩
  · rw [h1] at h
    cases h
    exact h1
  · rw [hf.2] at h; cases h
  · rcases accumulateStep_cases out e with ⟨h2, _⟩ | ⟨_, sl2, hsl2, hf2 | ⟨ss2, hf2, hu2⟩⟩
    · exact h2
    · rw [hf] at hf2; cases hf2.1
    · rw [hsl] at hsl2
      cases hsl2
      rw [hf] at hf2
      cases hf2
      rw [hu2]
      rw [hu] at h
      exact updateEntry_twice sl ss (hr hv sl hsl) table out h

theorem accumulateStep_absorbed (table out : StaffTable) (d e : Element)
    (hrd : RightExtentNonzero d) (hre : RightExtentNonzero e)
    (hd : accumulateStep table d = some table) (he : accumulateStep table e = some out) :
    accumulateStep out d = some out := by
  rcases accumulateStep_cases out d with ⟨h2, _⟩ | ⟨hvd, sd, hsd, hfd | ⟨sd_ss, hfd, hud⟩⟩
  · exact h2
  · rcases accumulateStep_cases table d with ⟨_, hk⟩ | ⟨_, sd2, hsd2, hfd2 | ⟨s2, hfd2, _⟩⟩
    · rcases hk with hk | hk
      · rw [hk] at hvd; cases hvd
      · rw [hk] at hsd; cases hsd
    · rw [hfd2.2] at hd; cases hd
    · rw [hfd.1] at hfd2; cases hfd2
  · rw [hud]
    have hd2 : updateEntry sd sd_ss table = some table := by
      rcases accumulateStep_cases table d with ⟨_, hk⟩ | ⟨_, sd2, hsd2, hfd2 | ⟨s2, hfd2, hu2⟩⟩
      · rcases hk with hk | hk
        · rw [hk] at hvd; cases hvd
        · rw [hk] at hsd; cases hsd
      · rw [hfd2.1] at hfd; cases hfd
      · rw [hsd] at hsd2
        cases hsd2
        rw [hfd] at hfd2
        cases hfd2
        rw [← hu2]
        exact hd
    rcases accumulateStep_cases table e with ⟨h1, _⟩ | ⟨hve, se, hse, hfe | ⟨se_ss, hfe, hue⟩⟩
    · rw [h1] at he
      cases he
      exact hd2
    · rw [hfe.2] at he; cases he
    · rw [hue] at he
      exact updateEntry_absorbed sd se sd_ss se_ss (hrd hvd sd hsd) (hre hve se hse) table out
        hd2 he

/-! ## Claim C13 -/

theorem accumulateStaves_removeRepeats (vel : List Element) :
    ∀ (done : List Element) (table : StaffTable),
      AddressesIdentify (done ++ vel) → (∀ e ∈ done ++ vel, RightExtentNonzero e) →
      (∀ d ∈ done, accumulateStep table d = some table) →
      accumulateStaves table vel =
        accumulateStaves table (removeRepeats (done.map Element.addr) vel) := by
  induction vel with
  | nil => intro done table _ _ _; rfl
  | cons e rest ih =>
    intro done table hid hr habs
    have hsub : ∀ x, x ∈ done ++ rest → x ∈ done ++ e :: rest := by
      intro x hx
      rcases List.mem_append.mp hx with h | h
      · exact List.mem_append_left _ h
      · exact List.mem_append_right _ (List.mem_cons_of_mem _ h)
    have he : e ∈ done ++ e :: rest := List.mem_append_right _ (List.mem_cons_self _ _)
    by_cases hseen : e.addr ∈ done.map Element.addr
    · obtain ⟨d, hd, hda⟩ := List.mem_map.mp hseen
      have hde : d = e := hid d (List.mem_append_left _ hd) e he hda
      have hstep : accumulateStep table e = some table := hde ▸ habs d hd
      simp only [removeRepeats, if_pos hseen, accumulateStaves, hstep]
      exact ih done table (fun a ha b hb => hid a (hsub a ha) b (hsub b hb))
        (fun x hx => hr x (hsub x hx)) habs
    · simp only [removeRepeats, if_neg hseen, accumulateStaves]
      cases hstep : accumulateStep table e with
      | none => rfl
      | some t1 =>
        dsimp only
        have hsub2 : ∀ x, x ∈ (e :: done) ++ rest → x ∈ done ++ e :: rest := by
          intro x hx
          rcases List.mem_append.mp hx with h | h
          · rcases List.mem_cons.mp h with rfl | h
            · exact he
            · exact List.mem_append_left _ h
          · exact List.mem_append_right _ (List.mem_cons_of_mem _ h)
        exact ih (e :: done) t1 (fun a ha b hb => hid a (hsub2 a ha) b (hsub2 b hb))
          (fun x hx => hr x (hsub2 x hx)) (by
            intro d hd
            rcases List.mem_cons.mp hd with rfl | hd
            · exact accumulateStep_twice table t1 d (hr d he) hstep
            · exact accumulateStep_absorbed table t1 d e
                (hr d (List.mem_append_left _ hd)) (hr e he) (habs d hd) hstep)

theorem collectStep_seen (mag : ℚ) (st : List Nat × StaffTable) (p : Element)
    (h : p.addr ∈ st.1) : collectStep mag st p = st := by
  unfold collectStep
  rw [if_pos h]

theorem collectStep_fresh (mag : ℚ) (st : List Nat × StaffTable) (p : Element)
    (h : p.addr ∉ st.1) : (collectStep mag st p).1 = p.addr :: st.1 := by
  unfold collectStep
  rw [if_neg h]
  by_cases h1 : p.visible = false
  · rw [if_pos h1]
  · rw [if_neg h1]
    by_cases h2 : p.stafflines.isSome = true
    · rw [if_pos h2]
    · rw [if_neg h2]
      cases FindSysStaff p with
      | none => rfl
      | some ss =>
        dsimp only
        by_cases h3 : p.isLedgerLine = true
        · rw [if_pos h3]
        · rw [if_neg h3]

/-- The third loop of `savePiecesProto` skips every later occurrence of an element, so it does
the same on the list without them. -/
theorem collect_removeRepeats (mag : ℚ) (vel : List Element) :
    ∀ st : List Nat × StaffTable,
      vel.foldl (collectStep mag) st = (removeRepeats st.1 vel).foldl (collectStep mag) st := by
  induction vel with
  | nil => intro st; rfl
  | cons e rest ih =>
    intro st
    by_cases hseen : e.addr ∈ st.1
    · simp only [removeRepeats, if_pos hseen, List.foldl_cons, collectStep_seen mag st e hseen]
      exact ih st
    · simp only [removeRepeats, if_neg hseen, List.foldl_cons]
      rw [ih (collectStep mag st e), collectStep_fresh mag st e hseen]

/-- C13 (as the code has it): for an element list in which every visible staff-line fragment
has a non-zero right page extent, the layout that `savePiecesProto` builds from the list equals
the layout it builds from the list with every later repeated occurrence of an element removed;
an element that occurs more than once contributes its pieces only once. -/
theorem C13_repeated_elements (c : OcrConsts) (vel : List Element) (mag : ℚ)
    (hid : AddressesIdentify vel) (hr : ∀ e ∈ vel, RightExtentNonzero e) :
    savePiecesProto c vel mag = savePiecesProto c (removeRepeats [] vel) mag := by
  have hacc : accumulateStaves [] vel = accumulateStaves [] (removeRepeats [] vel) :=
    accumulateStaves_removeRepeats vel [] [] hid hr (fun d hd => absurd hd (List.not_mem_nil d))
  unfold savePiecesProto scaledStaves
  rw [← hacc]
  cases accumulateStaves [] vel with
  | none => rfl
  | some table =>
    dsimp only [Option.map_some']
    rw [collect_removeRepeats mag vel ([], table.map (fun e => (e.1, scaleStaff mag e.2)))]

theorem sample_addresses_identify (f g : StaffLines) :
    AddressesIdentify [sampleStaffLinesElement 1 f, sampleStaffLinesElement 2 g,
      sampleStaffLinesElement 1 f] := by
  intro a ha b hb h
  simp only [List.mem_cons, List.mem_singleton, List.not_mem_nil, or_false] at ha hb
  rcases ha with rfl | rfl | rfl <;> rcases hb with rfl | rfl | rfl <;>
    first
      | rfl
      | exact absurd h (by simp [sampleStaffLinesElement])

theorem sample_removeRepeats (f g : StaffLines) :
    removeRepeats [] [sampleStaffLinesElement 1 f, sampleStaffLinesElement 2 g,
      sampleStaffLinesElement 1 f] =
      [sampleStaffLinesElement 1 f, sampleStaffLinesElement 2 g] := by
  simp [removeRepeats, sampleStaffLinesElement]

/-- Counterexample to C13 as stated: the first loop of `savePiecesProto` has no identity set.
The list holds a fragment with extents [0, 0], then a fragment with extents [100, 250] of the
same staff, then the first fragment again. With the repeated occurrence the staff ends with
`x0 = 0`; without it the staff ends with `x0 = 100`. -/
theorem C13_counterexample :
    AddressesIdentify [sampleStaffLinesElement 1 (sampleFragment 0 0 0 50),
        sampleStaffLinesElement 2 (sampleFragment 0 150 100 50),
        sampleStaffLinesElement 1 (sampleFragment 0 0 0 50)] ∧
      savePiecesProto sampleConsts [sampleStaffLinesElement 1 (sampleFragment 0 0 0 50),
        sampleStaffLinesElement 2 (sampleFragment 0 150 100 50),
        sampleStaffLinesElement 1 (sampleFragment 0 0 0 50)] 1 =
        some { staff := [{ Staff.empty with x0 := 0, x1 := 250, y := 50, dy := 1,
                                            nlines := 5 }] } ∧
      savePiecesProto sampleConsts
        (removeRepeats [] [sampleStaffLinesElement 1 (sampleFragment 0 0 0 50),
          sampleStaffLinesElement 2 (sampleFragment 0 150 100 50),
          sampleStaffLinesElement 1 (sampleFragment 0 0 0 50)]) 1 =
        some { staff := [{ Staff.empty with x0 := 100, x1 := 250, y := 50, dy := 1,
                                            nlines := 5 }] } := by
  refine ⟨sample_addresses_identify _ _, ?_, ?_⟩
  · norm_num [savePiecesProto, scaledStaves, accumulateStaves, accumulateStep,
      sampleStaffLinesElement, FindSysStaff, updateEntry, updateStaff, sampleFragment,
      Staff.empty, xmin, xmax, scaleStaff, collectStep, SortLayout, sortStaves, sortStaff,
      MarkUnsupported, markLoop, stdSort, sortInsert]
  · rw [sample_removeRepeats]
    norm_num [savePiecesProto, scaledStaves, accumulateStaves, accumulateStep,
      sampleStaffLinesElement, FindSysStaff, updateEntry, updateStaff, sampleFragment,
      Staff.empty, xmin, xmax, scaleStaff, collectStep, SortLayout, sortStaves, sortStaff,
      MarkUnsupported, markLoop, stdSort, sortInsert]

/-- Witness of C13: a fragment with extents [0, 100] and a note element that occurs twice in
the list; the layout holds the piece of the note once. -/
theorem C13_witness :
    (AddressesIdentify [sampleStaffLinesElement 1 (sampleFragment 0 100 0 50),
        sampleNoteElement 3 [sampleNotePiece 5],
        sampleNoteElement 3 [sampleNotePiece 5]] ∧
      ∀ e ∈ [sampleStaffLinesElement 1 (sampleFragment 0 100 0 50),
        sampleNoteElement 3 [sampleNotePiece 5],
        sampleNoteElement 3 [sampleNotePiece 5]], RightExtentNonzero e) ∧
      savePiecesProto sampleConsts [sampleStaffLinesElement 1 (sampleFragment 0 100 0 50),
        sampleNoteElement 3 [sampleNotePiece 5],
        sampleNoteElement 3 [sampleNotePiece 5]] 1 =
      savePiecesProto sampleConsts
        (removeRepeats [] [sampleStaffLinesElement 1 (sampleFragment 0 100 0 50),
          sampleNoteElement 3 [sampleNotePiece 5],
          sampleNoteElement 3 [sampleNotePiece 5]]) 1 := by
  have hid : AddressesIdentify [sampleStaffLinesElement 1 (sampleFragment 0 100 0 50),
      sampleNoteElement 3 [sampleNotePiece 5],
      sampleNoteElement 3 [sampleNotePiece 5]] := by
    intro a ha b hb h
    simp only [List.mem_cons, List.mem_singleton, List.not_mem_nil, or_false] at ha hb
    rcases ha with rfl | rfl | rfl <;> rcases hb with rfl | rfl | rfl <;>
      first
        | rfl
        | exact absurd h (by simp [sampleStaffLinesElement, sampleNoteElement])
  have hr : ∀ e ∈ [sampleStaffLinesElement 1 (sampleFragment 0 100 0 50),
      sampleNoteElement 3 [sampleNotePiece 5],
      sampleNoteElement 3 [sampleNotePiece 5]], RightExtentNonzero e := by
    intro e he _ sl hsl
    simp only [List.mem_cons, List.mem_singleton, List.not_mem_nil, or_false] at he
    rcases he with rfl | rfl | rfl
    · simp only [sampleStaffLinesElement, Option.some.injEq] at hsl
      subst hsl
      norm_num [StaffLines.rightExtent, StaffLines.line0, sampleFragment]
    · simp [sampleNoteElement] at hsl
    · simp [sampleNoteElement] at hsl
  exact ⟨⟨hid, hr⟩, C13_repeated_elements sampleConsts _ 1 hid hr⟩

theorem sample_repeated_note :
    savePiecesProto sampleConsts [sampleStaffLinesElement 1 (sampleFragment 0 100 0 50),
        sampleNoteElement 3 [sampleNotePiece 5],
        sampleNoteElement 3 [sampleNotePiece 5]] 1 =
      some { staff := [{ x0 := 0, x1 := 100, x2 := 0, y := 50, dy := 1, nlines := 5,
                         piece := [sampleNotePiece 5] }] } := by
  norm_num [savePiecesProto, scaledStaves, accumulateStaves, accumulateStep,
    sampleStaffLinesElement, sampleNoteElement, FindSysStaff, updateEntry, updateStaff,
    sampleFragment, Staff.empty, xmin, xmax, scaleStaff, collectStep, addPieces, SortLayout,
    sortStaves, sortStaff, MarkUnsupported, markLoop, visitPiece, ref1Block, ref2Block, minY,
    maxY, sampleConsts, samplePiece, sampleNotePiece, IsSlur, MaybeDuplicate, mapSet, stdSort, sortInsert]
end Ms
